import Mathlib

/-!
Verification of the positional XML editing core and change-tracking extension
shared by the ODT and IDML skills (`skills/odt/scripts/utilities.py`,
`skills/odt/scripts/odt_document.py`, `skills/odt/scripts/validate_changes.py`,
`skills/idml/scripts/utilities.py`,
`skills/idml/scripts/validate_content_only_changes.py`).

The Python DOM (xml.dom.minidom) is shallowly embedded as a tree of elements
and text nodes.  Tag and attribute names are strings; text data is a list of
characters (so substring containment can be stated positionally).  DOM node
references are embedded as child-index paths; sibling-index shifting caused by
insertions mirrors how live DOM references track mutations.
-/

namespace DocEdit

/-- A minidom node: an element (tag, attributes in document order, optional
recorded parse line from the line-tracking SAX parser, children) or a text
node.  `pos = none` models nodes synthesized after the initial parse, whose
`parse_position` attribute is absent. -/
inductive XNode : Type where
  | elem (tag : String) (attrs : List (String × String)) (pos : Option Nat)
      (children : List XNode)
  | text (data : List Char)
deriving Repr

def tagOf : XNode → String
  | .elem t _ _ _ => t
  | .text _ => ""

def attrsOf : XNode → List (String × String)
  | .elem _ a _ _ => a
  | .text _ => []

def posOf : XNode → Option Nat
  | .elem _ _ p _ => p
  | .text _ => none

def childrenOf : XNode → List XNode
  | .elem _ _ _ cs => cs
  | .text _ => []

def isElem : XNode → Bool
  | .elem _ _ _ _ => true
  | .text _ => false

/-- Association-list lookup, first match wins (models attribute maps). -/
def lookupA : List (String × String) → String → Option String
  | [], _ => none
  | (k, v) :: rest, key => if k = key then some v else lookupA rest key

/-- minidom `Element.getAttribute`: the empty string when absent. -/
def getAttribute (attrs : List (String × String)) (name : String) : String :=
  (lookupA attrs name).getD ""

/-- Python `s.strip()` truthiness: the data contains a non-whitespace char. -/
def hasNonWs (s : List Char) : Bool := s.any (fun c => !c.isWhitespace)

/-- `strStarts needle hay`: `needle` is an initial run of `hay`. -/
def strStarts : List Char → List Char → Bool
  | [], _ => true
  | _ :: _, [] => false
  | a :: as, b :: bs => a == b && strStarts as bs

/-- Python's `needle in hay` on strings: contiguous substring containment. -/
def strContains : (hay : List Char) → (needle : List Char) → Bool
  | hay, needle =>
    strStarts needle hay ||
      match hay with
      | [] => false
      | _ :: t => strContains t needle

mutual
/-- `XMLEditor._get_element_text`: concatenate the data of descendant text
nodes, dropping every text node whose data is whitespace-only (the
`if node.data.strip()` guard), and recursing into element children. -/
def getElementText : XNode → List Char
  | .text d => if hasNonWs d then d else []
  | .elem _ _ _ cs => childListText cs
def childListText : List XNode → List Char
  | [] => []
  | n :: ns => getElementText n ++ childListText ns
end

mutual
/-- `Document.getElementsByTagName`: all elements with the given tag in
document (preorder) order, the root element included. -/
def elemsByTag (tg : String) : XNode → List XNode
  | .text _ => []
  | .elem t a p cs =>
      (if t = tg then [XNode.elem t a p cs] else []) ++ elemsByTagList tg cs
def elemsByTagList (tg : String) : List XNode → List XNode
  | [] => []
  | n :: ns => elemsByTag tg n ++ elemsByTagList tg ns
end

/-- The `line_number` argument of `get_node`: a single line or a Python
`range(lo, hi)` (which contains `l` iff `lo ≤ l < hi`). -/
inductive LineSel where
  | one (n : Nat)
  | lineRange (lo hi : Nat)
deriving DecidableEq, Repr

/-- The `line_number` filter of `get_node`; an element without a recorded
parse position (`parse_position` defaulting to `(None,)`) never matches. -/
def lineOk (sel : LineSel) (pos : Option Nat) : Bool :=
  match sel, pos with
  | .one n, some l => l == n
  | .one _, none => false
  | .lineRange lo hi, some l => lo ≤ l && l < hi
  | .lineRange _ _, none => false

/-- The `attrs` filter of `get_node`: every requested attribute equals the
element's `getAttribute` value. -/
def attrsOk (want : List (String × String)) (attrs : List (String × String)) : Bool :=
  want.all (fun kv => getAttribute attrs kv.1 == kv.2)

/-- All three `get_node` filters, AND-composed, for one candidate element.
`u` is the HTML entity decoder (`html.unescape`), applied to the needle. -/
def nodeMatches (u : List Char → List Char)
    (attrs : Option (List (String × String))) (line : Option LineSel)
    (contains : Option (List Char)) (n : XNode) : Bool :=
  (match line with
   | some sel => lineOk sel (posOf n)
   | none => true) &&
  (match attrs with
   | some want => attrsOk want (attrsOf n)
   | none => true) &&
  (match contains with
   | some needle => strContains (getElementText n) (u needle)
   | none => true)

/-- The candidate loop of `get_node`: each filter failure `continue`s,
otherwise the element is appended to `matches`. -/
def scanMatches (u : List Char → List Char)
    (attrs : Option (List (String × String))) (line : Option LineSel)
    (contains : Option (List Char)) : List XNode → List XNode
  | [] => []
  | e :: rest =>
      let skipLine : Bool :=
        match line with
        | some sel => !lineOk sel (posOf e)
        | none => false
      let skipAttrs : Bool :=
        match attrs with
        | some want => !attrsOk want (attrsOf e)
        | none => false
      let skipContains : Bool :=
        match contains with
        | some needle => !strContains (getElementText e) (u needle)
        | none => false
      if skipLine || skipAttrs || skipContains then
        scanMatches u attrs line contains rest
      else
        e :: scanMatches u attrs line contains rest

/-- Locator failure: zero matches (`ValueError` with a predicate-specific
hint) or more than one match (`ValueError` asking for more filters). -/
inductive LocErr where
  | notFound (tag : String) (hint : String)
  | ambiguous (tag : String)
deriving DecidableEq, Repr

/-- Python truthiness of the `contains` argument (`if contains:`). -/
def containsTruthy : Option (List Char) → Bool
  | some s => !s.isEmpty
  | none => false

/-- Python truthiness of the `line_number` argument (`elif line_number:`);
`0` is falsy, a `range` object is always truthy. -/
def lineTruthy : Option LineSel → Bool
  | some (.one n) => n != 0
  | some (.lineRange _ _) => true
  | none => false

/-- Python truthiness of the `attrs` argument (`elif attrs:`). -/
def attrsTruthy : Option (List (String × String)) → Bool
  | some l => !l.isEmpty
  | none => false

/-- The remediation hint attached to the `Node not found` error. -/
def notFoundHint (attrs : Option (List (String × String))) (line : Option LineSel)
    (contains : Option (List Char)) : String :=
  if containsTruthy contains then
    "Text may be split across elements or use different wording."
  else if lineTruthy line then
    "Line numbers may have changed if document was modified."
  else if attrsTruthy attrs then
    "Verify attribute values are correct."
  else
    "Try adding filters (attrs, line_number, or contains)."

/-- `XMLEditor.get_node` (identical in the ODT and IDML utilities): scan all
elements with the tag, keep those passing every supplied filter, then demand
exactly one match.  Read-only: the document is not part of the result. -/
def get_node (u : List Char → List Char) (doc : XNode) (tag : String)
    (attrs : Option (List (String × String))) (line : Option LineSel)
    (contains : Option (List Char)) : Except LocErr XNode :=
  match scanMatches u attrs line contains (elemsByTag tag doc) with
  | [] => .error (.notFound tag (notFoundHint attrs line contains))
  | [m] => .ok m
  | _ :: _ :: _ => .error (.ambiguous tag)

/-! ### Specification-side view of descendant text (for C10) -/

mutual
/-- All descendant text-node data runs of a node, in document order
(specification-side view used to characterise `getElementText`). -/
def textDatas : XNode → List (List Char)
  | .text d => [d]
  | .elem _ _ _ cs => textDatasL cs
def textDatasL : List XNode → List (List Char)
  | [] => []
  | n :: ns => textDatas n ++ textDatasL ns
end

/-- The concatenation of descendant text with whitespace-only text nodes
omitted entirely (the spec's reading of `_get_element_text`). -/
def wsOmittedText (n : XNode) : List Char :=
  ((textDatas n).filter hasNonWs).flatten

/-! ### Child-list semantics of the mutation loops -/

/-- Insert `ns` at position `k` of a child list (DOM `insertBefore` relative
to the child currently at `k`, or `appendChild` when `k` is the length). -/
def listInsertAt (cs : List XNode) (k : Nat) (ns : List XNode) : List XNode :=
  cs.take k ++ ns ++ cs.drop k

/-- The `insert_before` loop body: each node is inserted immediately before
the target element (which starts at index `i` and moves right each time). -/
def insertBeforeLoop : List XNode → Nat → List XNode → List XNode
  | cs, _, [] => cs
  | cs, i, n :: ns => insertBeforeLoop (listInsertAt cs i [n]) (i + 1) ns

/-- One iteration of the `insert_after` loop: if the target (at index `i`)
has no next sibling, `appendChild`; otherwise `insertBefore` the current
next sibling (index `i + 1`). -/
def insertAfterStep (cs : List XNode) (i : Nat) (n : XNode) : List XNode :=
  match cs[i + 1]? with
  | none => cs ++ [n]
  | some _ => listInsertAt cs (i + 1) [n]

/-- The `insert_after` loop over all fragment nodes; the target element
stays at index `i` throughout. -/
def insertAfterLoop : List XNode → Nat → List XNode → List XNode
  | cs, _, [] => cs
  | cs, i, n :: ns => insertAfterLoop (insertAfterStep cs i n) i ns

/-! ### Fragment synthesis and the editor's mutation operations

DOM node references are embedded as a parent path plus a child index
(`insert_after(elem, ...)` becomes `insert_after doc parent idx ...`).  A
mutation on a missing reference is an `invalidRef` error. -/

/-- Errors of the editing layer.  `malformedFragment` models the parse error
raised by `parseString` on the wrapped fragment; `emptyFragment` the
`assert elements, "Fragment must contain at least one element"`. -/
inductive EdErr where
  | malformedFragment
  | emptyFragment
  | invalidRef
  | invalidChangeKind
  | missingOfficeText
  | locatorNotFound
  | locatorAmbiguous
deriving DecidableEq, Repr

def hasElemNode (ns : List XNode) : Bool := ns.any isElem

/-- `XMLEditor._parse_fragment`: `none` stands for a fragment string whose
wrapper fails to parse; `some ns` for the wrapper root's child nodes.  The
element assertion fires before any mutation. -/
def parse_fragment : Option (List XNode) → Except EdErr (List XNode)
  | none => .error .malformedFragment
  | some ns => if hasElemNode ns then .ok ns else .error .emptyFragment

/-- A DOM node identified by the child indices leading to it from the root. -/
abbrev Path := List Nat

/-- Navigate to the node at a child-index path. -/
def getAt : XNode → Path → Option XNode
  | n, [] => some n
  | .elem _ _ _ cs, i :: p =>
      match cs[i]? with
      | some c => getAt c p
      | none => none
  | .text _, _ :: _ => none

/-- Replace the node at a path (identity on an invalid path). -/
def setAt : Path → XNode → XNode → XNode
  | [], m, _ => m
  | i :: p, m, .elem t a ps cs =>
      match cs[i]? with
      | some c => .elem t a ps (cs.set i (setAt p m c))
      | none => .elem t a ps cs
  | _ :: _, _, .text d => .text d

/-- Rewrite the child list of the element at a path. -/
def modifyAt : Path → (List XNode → Option (List XNode)) → XNode → Option XNode
  | [], f, .elem t a ps cs => (f cs).map (XNode.elem t a ps)
  | i :: p, f, .elem t a ps cs =>
      match cs[i]? with
      | some c => (modifyAt p f c).map (fun c2 => XNode.elem t a ps (cs.set i c2))
      | none => none
  | _, _, .text _ => none

/-- `pathLe q p`: `q` is a (non-strict) ancestor-prefix of `p`; the node at
`p` lies in the subtree rooted at the node at `q`. -/
def pathLe : Path → Path → Bool
  | [], _ => true
  | _ :: _, [] => false
  | a :: as, b :: bs => a == b && pathLe as bs

/-- How a live DOM reference (parent path `rp`, child index `ri`) reads
after `m` nodes are inserted at index `k` under the node at path `P`:
sibling indices at the insertion level shift right, everything else is
untouched. -/
def shiftRef : Path → Nat → Nat → Path → Nat → Path × Nat
  | [], k, m, [], ri => ([], if k ≤ ri then ri + m else ri)
  | [], k, m, j :: q, ri => ((if k ≤ j then j + m else j) :: q, ri)
  | _ :: _, _, _, [], ri => ([], ri)
  | p :: ps, k, m, j :: q, ri =>
      if j = p then
        let r := shiftRef ps k m q ri
        (j :: r.1, r.2)
      else (j :: q, ri)

/-- Split a node path into (parent path, child index). -/
def splitRef (p : Path) : Option (Path × Nat) :=
  match p.reverse with
  | [] => none
  | i :: rest => some (rest.reverse, i)

/-- Insert already-synthesized nodes via the `insert_before` loop; the
reference child at `idx` must exist. -/
def insertNodesBefore (doc : XNode) (parent : Path) (idx : Nat)
    (ns : List XNode) : Option XNode :=
  modifyAt parent
    (fun cs => if idx < cs.length then some (insertBeforeLoop cs idx ns) else none) doc

/-- Insert already-synthesized nodes via the `insert_after` loop. -/
def insertNodesAfter (doc : XNode) (parent : Path) (idx : Nat)
    (ns : List XNode) : Option XNode :=
  modifyAt parent
    (fun cs => if idx < cs.length then some (insertAfterLoop cs idx ns) else none) doc

/-- Append nodes as last children of the element at `p`. -/
def appendNodes (doc : XNode) (p : Path) (ns : List XNode) : Option XNode :=
  modifyAt p (fun cs => some (listInsertAt cs cs.length ns)) doc

/-- `XMLEditor.remove_node`: detach the child at `idx`. -/
def removeNodeAt (doc : XNode) (parent : Path) (idx : Nat) : Option XNode :=
  modifyAt parent
    (fun cs => if idx < cs.length then some (cs.eraseIdx idx) else none) doc

/-- `XMLEditor.replace_node`: parse the fragment, insert every node before
the target, then remove the target (now at index `idx + ns.length`). -/
def replace_node (doc : XNode) (parent : Path) (idx : Nat)
    (fr : Option (List XNode)) : Except EdErr XNode := do
  let ns ← parse_fragment fr
  match modifyAt parent
      (fun cs =>
        if idx < cs.length then
          some ((insertBeforeLoop cs idx ns).eraseIdx (idx + ns.length))
        else none) doc with
  | some d => pure d
  | none => Except.error .invalidRef

/-- `XMLEditor.insert_before` on a fragment string. -/
def insert_before (doc : XNode) (parent : Path) (idx : Nat)
    (fr : Option (List XNode)) : Except EdErr XNode := do
  let ns ← parse_fragment fr
  match insertNodesBefore doc parent idx ns with
  | some d => pure d
  | none => Except.error .invalidRef

/-- `XMLEditor.insert_after` on a fragment string. -/
def insert_after (doc : XNode) (parent : Path) (idx : Nat)
    (fr : Option (List XNode)) : Except EdErr XNode := do
  let ns ← parse_fragment fr
  match insertNodesAfter doc parent idx ns with
  | some d => pure d
  | none => Except.error .invalidRef

/-- `XMLEditor.append_to` on a fragment string (target given by its path). -/
def append_to (doc : XNode) (p : Path) (fr : Option (List XNode)) :
    Except EdErr XNode := do
  let ns ← parse_fragment fr
  match appendNodes doc p ns with
  | some d => pure d
  | none => Except.error .invalidRef

/-! ### Generic attribute scans over a document

Both the marker collection (`root.findall(".//tag")` + attribute read) and
the changed-region collection of `validate_changes.validate` are instances
of one traversal shape: a per-element local contribution (computed from the
element's tag, attributes and direct children) concatenated over the tree in
preorder, with the root's own contribution excluded (ElementTree's `.//`
never matches the root). -/

section Scans

variable (loc : String → List (String × String) → List XNode → List String)

mutual
def scanSelf : XNode → List String
  | .text _ => []
  | .elem t a _ cs => loc t a cs ++ scanL cs
def scanL : List XNode → List String
  | [] => []
  | n :: ns => scanSelf n ++ scanL ns
end

def docScan : XNode → List String
  | .text _ => []
  | .elem _ _ _ cs => scanL loc cs

end Scans

def trackedChangesTag : String := "text:tracked-changes"
def changedRegionTag : String := "text:changed-region"

/-- Local contribution of one element to the marker scan for one marker
tag: its `text:change-id`, skipped when absent or empty (`if cid:`). -/
def markerLocal (tg t : String) (a : List (String × String))
    (_cs : List XNode) : List String :=
  if t = tg then
    match lookupA a "text:change-id" with
    | some v => if v = "" then [] else [v]
    | none => []
  else []

/-- The non-empty `text:change-id`s of all `.//tg` elements, in document
order. -/
def taggedIds (tg : String) (doc : XNode) : List String :=
  docScan (markerLocal tg) doc

/-- The declared id a direct child contributes: for a
`text:changed-region` element its non-empty `text:id` (`if change_id:`). -/
def regionEntry : XNode → Option String
  | .elem ct ca _ _ =>
      if ct = changedRegionTag then
        match lookupA ca "text:id" with
        | some v => if v = "" then none else some v
        | none => none
      else none
  | .text _ => none

/-- Local contribution of one element to the declared-ids scan: for a
`text:tracked-changes` element, the ids of its direct
`text:changed-region` children. -/
def regionLocal (t : String) (_a : List (String × String))
    (cs : List XNode) : List String :=
  if t = trackedChangesTag then cs.filterMap regionEntry else []

/-- The declared change-ids: for every `.//text:tracked-changes` element the
ids of its direct `text:changed-region` children. -/
def docRegions (doc : XNode) : List String := docScan regionLocal doc

/-- Local contribution used only to detect the presence of a tag. -/
def tagHitLocal (tg t : String) (_a : List (String × String))
    (_cs : List XNode) : List String :=
  if t = tg then [t] else []

/-- Whether the subtree rooted at `n` (itself included) contains an element
with the given tag. -/
def subtreeHasTag (tg : String) (n : XNode) : Bool :=
  !(scanSelf (tagHitLocal tg) n).isEmpty

/-! ### The Change Consistency Validator (`validate_changes.validate`) -/

/-- The marker elements' change-ids in the order the validator collects
them: all change-start markers, then all change-end markers, then all point
`text:change` markers (`for tag in (...): markers.extend(...)`), empty ids
skipped. -/
def markersSeq (doc : XNode) : List String :=
  taggedIds "text:change-start" doc ++ taggedIds "text:change-end" doc ++
    taggedIds "text:change" doc

/-- The validator's errors, one per marker whose (non-empty) change-id is
not declared by any changed-region; the carried string is the offending id
(standing for the `Marker references unknown change-id: ...` message). -/
def validateErrors (doc : XNode) : List String :=
  (markersSeq doc).filter (fun cid => !(docRegions doc).contains cid)

inductive VWarn where
  | imbalance (cid : String) (startCount endCount : Nat)
  | unreferenced (cid : String)
deriving DecidableEq, Repr

/-- First-occurrence deduplication; stands in for `Counter`/set iteration
order over the collected ids (the Python `set` order is unspecified; only
membership and multiplicity matter to the checks). -/
def firstOcc (l : List String) : List String :=
  l.foldl (fun acc s => if s ∈ acc then acc else acc ++ [s]) []

/-- The validator's warnings: change-ids with more start than end markers,
then declared ids never referenced by any marker. -/
def validateWarnings (doc : XNode) : List VWarn :=
  let starts := taggedIds "text:change-start" doc
  let stops := taggedIds "text:change-end" doc
  (firstOcc starts).filterMap (fun cid =>
    if stops.count cid < starts.count cid then
      some (.imbalance cid (starts.count cid) (stops.count cid))
    else none) ++
  (firstOcc (docRegions doc)).filterMap (fun cid =>
    if (markersSeq doc).contains cid then none else some (.unreferenced cid))

/-- The validator's exit code: `0 if not errors else 1` (warnings are
printed but never affect it). -/
def validateRet (doc : XNode) : Nat :=
  if validateErrors doc = [] then 0 else 1

/-! ### The change-tracking model (`ODTDocument`) -/

def changeStartMarker (cid : String) : XNode :=
  .elem "text:change-start" [("text:change-id", cid)] none []

def changeEndMarker (cid : String) : XNode :=
  .elem "text:change-end" [("text:change-id", cid)] none []

def changePointMarker (cid : String) : XNode :=
  .elem "text:change" [("text:change-id", cid)] none []

mutual
/-- Path of the first element carrying the tag, in document order (the
element `getElementsByTagName(tag)[0]`), the root included. -/
def findTagged (tg : String) : XNode → Option Path
  | .text _ => none
  | .elem t _ _ cs => if t = tg then some [] else findTaggedL tg cs 0
def findTaggedL (tg : String) : List XNode → Nat → Option Path
  | [], _ => none
  | n :: ns, i =>
      match findTagged tg n with
      | some q => some (i :: q)
      | none => findTaggedL tg ns (i + 1)
end

/-- Index of the last direct child element tagged `text:sequence-decls`
(the `for node in parent.childNodes` loop keeps overwriting). -/
def lastSeqDecls : List XNode → Nat → Option Nat
  | [], _ => none
  | n :: ns, i =>
      match lastSeqDecls ns (i + 1) with
      | some j => some j
      | none =>
          match n with
          | .elem t _ _ _ => if t = "text:sequence-decls" then some i else none
          | .text _ => none

/-- Index of the first direct child that is an element. -/
def firstElemIdx : List XNode → Nat → Option Nat
  | [], _ => none
  | n :: ns, i => if isElem n then some i else firstElemIdx ns (i + 1)

structure EnsureResult where
  doc : XNode
  tpath : Path
  /-- `some (P, k)` when the container was freshly inserted at index `k`
  under the node at `P` (live references shift accordingly). -/
  created : Option (Path × Nat)

/-- `ODTDocument.ensure_tracked_changes`: find the existing container, or
create one under the first `office:text` — after the last
`text:sequence-decls` when that has a next sibling, otherwise before the
first element child (appending when there is none). -/
def ensure_tracked_changes (doc : XNode) : Except EdErr EnsureResult :=
  match findTagged trackedChangesTag doc with
  | some p => .ok ⟨doc, p, none⟩
  | none =>
      match findTagged "office:text" doc with
      | none => .error .missingOfficeText
      | some otPath =>
          match getAt doc otPath with
          | some (.elem _ _ _ cs) =>
              let tracked : XNode := .elem trackedChangesTag [] none []
              let insIdx : Nat :=
                match lastSeqDecls cs 0 with
                | some j =>
                    if j + 1 < cs.length then j + 1
                    else
                      match firstElemIdx cs 0 with
                      | some k => k
                      | none => cs.length
                | none =>
                    match firstElemIdx cs 0 with
                    | some k => k
                    | none => cs.length
              match modifyAt otPath
                  (fun cs0 => some (listInsertAt cs0 insIdx [tracked])) doc with
              | some d => .ok ⟨d, otPath ++ [insIdx], some (otPath, insIdx)⟩
              | none => .error .missingOfficeText
          | _ => .error .missingOfficeText

def validChangeKinds : List String := ["insertion", "deletion", "format-change"]

/-- The `text:changed-region` node `add_change_record` builds: id
attribute, kind element, `office:change-info` with creator and date, and
the parsed payload. -/
def regionNode (change_type author date cid : String)
    (payloadNodes : List XNode) : XNode :=
  .elem changedRegionTag [("text:id", cid)] none
    [.elem ("text:" ++ change_type) [] none
      (.elem "office:change-info" [] none
        [.elem "dc:creator" [] none [.text author.toList],
         .elem "dc:date" [] none [.text date.toList]] :: payloadNodes)]

structure RecordResult where
  doc : XNode
  created : Option (Path × Nat)

/-- `ODTDocument.add_change_record`.  The change kind is validated before
anything is touched; then the container is found or created, the
`text:changed-region` (id attribute, kind element, `office:change-info`
with creator and date, optional parsed payload) is built, and appended to
the container.  The generated/supplied change-id and the effective
timestamp are inputs here (`random` and `datetime.now` are external). -/
def add_change_record (doc : XNode) (change_type author date : String)
    (payload : Option (List XNode)) (cid : String) :
    Except EdErr RecordResult := do
  if validChangeKinds.contains change_type then
    let er ← ensure_tracked_changes doc
    let payloadNodes ←
      match payload with
      | none => pure []
      | some fr => parse_fragment (some fr)
    match appendNodes er.doc er.tpath
        [regionNode change_type author date cid payloadNodes] with
    | some d => pure ⟨d, er.created⟩
    | none => Except.error .invalidRef
  else
    Except.error .invalidChangeKind

/-- `ODTDocument.add_change_markers`, for a start and end reference that are
siblings under `parent` (as produced by `suggest_insertion`): insert the
start marker before child `i`, then the end marker after the end child —
which now sits at `j + 1` when it was at or after the start (`i ≤ j`). -/
def add_change_markers (doc : XNode) (parent : Path) (i j : Nat)
    (cid : String) : Except EdErr XNode := do
  let d1 ←
    match insertNodesBefore doc parent i [changeStartMarker cid] with
    | some d => pure d
    | none => Except.error .invalidRef
  let j2 := if i ≤ j then j + 1 else j
  match insertNodesAfter d1 parent j2 [changeEndMarker cid] with
  | some d => pure d
  | none => Except.error .invalidRef

/-- `ODTDocument.add_change_point`: a self-closing `text:change` marker
inserted after the reference child. -/
def add_change_point (doc : XNode) (parent : Path) (idx : Nat)
    (cid : String) : Except EdErr XNode :=
  match insertNodesAfter doc parent idx [changePointMarker cid] with
  | some d => pure d
  | none => Except.error .invalidRef

/-- Position in a node list of the first element node. -/
def firstElemPos (ns : List XNode) : Option Nat := firstElemIdx ns 0

/-- Position in a node list of the last element node. -/
def lastElemPos : List XNode → Option Nat
  | [] => none
  | n :: ns =>
      match lastElemPos ns with
      | some j => some (j + 1)
      | none => if isElem n then some 0 else none

/-- `ODTDocument.suggest_insertion`: record an `insertion` change carrying
the fragment as payload, `insert_after` the fragment (the live `after_elem`
reference tracks a freshly created container), then wrap the inserted
element span in range markers — `_first_last_elements` picks the first and
last element of the returned node list, which the reversing `insert_after`
loop has left at child indexes `idx + len - k`.  The point-marker branch is
kept from the source although a fragment with no element node has already
failed the payload parse. -/
def suggest_insertion (doc : XNode) (parent : Path) (idx : Nat)
    (frag : List XNode) (cid author date : String) : Except EdErr XNode := do
  let rr ← add_change_record doc "insertion" author date (some frag) cid
  let pr :=
    match rr.created with
    | some (cp, ck) => shiftRef cp ck 1 parent idx
    | none => (parent, idx)
  let d2 ←
    match insertNodesAfter rr.doc pr.1 pr.2 frag with
    | some d => pure d
    | none => Except.error .invalidRef
  match firstElemPos frag, lastElemPos frag with
  | some k0, some k1 =>
      add_change_markers d2 pr.1 (pr.2 + frag.length - k0)
        (pr.2 + frag.length - k1) cid
  | _, _ => add_change_point d2 pr.1 pr.2 cid

/-- `ODTDocument.suggest_deletion`: serialize the target as the deletion
payload, record the change, insert a point marker after the still-attached
target, then remove the target (the marker slides into its index). -/
def suggest_deletion (doc : XNode) (parent : Path) (idx : Nat)
    (cid author date : String) : Except EdErr XNode := do
  let target ←
    match getAt doc (parent ++ [idx]) with
    | some n => pure n
    | none => Except.error .invalidRef
  let rr ← add_change_record doc "deletion" author date (some [target]) cid
  let pr :=
    match rr.created with
    | some (cp, ck) => shiftRef cp ck 1 parent idx
    | none => (parent, idx)
  let d2 ←
    match insertNodesAfter rr.doc pr.1 pr.2 [changePointMarker cid] with
    | some d => pure d
    | none => Except.error .invalidRef
  match removeNodeAt d2 pr.1 pr.2 with
  | some d => pure d
  | none => Except.error .invalidRef

mutual
/-- Paths of all elements with the tag, in document order. -/
def elemPathsByTag (tg : String) : XNode → List Path
  | .text _ => []
  | .elem t _ _ cs =>
      (if t = tg then [([] : Path)] else []) ++ elemPathsByTagL tg cs 0
def elemPathsByTagL (tg : String) : List XNode → Nat → List Path
  | [], _ => []
  | n :: ns, i =>
      (elemPathsByTag tg n).map (fun q => i :: q) ++ elemPathsByTagL tg ns (i + 1)
end

/-- `get_node(tag=..., attrs=...)` used as a path locator: all elements with
the tag and matching attributes, demanding exactly one. -/
def locateUniquePath (doc : XNode) (tg : String)
    (want : List (String × String)) : Except EdErr Path :=
  match (elemPathsByTag tg doc).filter
      (fun p =>
        match getAt doc p with
        | some n => attrsOk want (attrsOf n)
        | none => false) with
  | [] => .error .locatorNotFound
  | [p] => .ok p
  | _ :: _ :: _ => .error .locatorAmbiguous

/-- `ODTDocument.suggest_replacement`: a deletion followed by an insertion
anchored at the deletion's point marker, which is located with
`get_node(tag="text:change", attrs={"text:change-id": del_id})`. -/
def suggest_replacement (doc : XNode) (parent : Path) (idx : Nat)
    (frag : List XNode) (delId insId author date : String) :
    Except EdErr XNode := do
  let d1 ← suggest_deletion doc parent idx delId author date
  let mp ← locateUniquePath d1 "text:change" [("text:change-id", delId)]
  match splitRef mp with
  | none => Except.error .invalidRef
  | some (mparent, midx) =>
      suggest_insertion d1 mparent midx frag insId author date

/-- One composite change-suggesting operation, with the change-ids and the
timestamp supplied as inputs. -/
inductive SOp where
  | ins (parent : Path) (idx : Nat) (frag : List XNode) (cid author date : String)
  | del (parent : Path) (idx : Nat) (cid author date : String)
  | repl (parent : Path) (idx : Nat) (frag : List XNode)
      (delId insId author date : String)

def runOp (doc : XNode) : SOp → Except EdErr XNode
  | .ins parent idx frag cid author date =>
      suggest_insertion doc parent idx frag cid author date
  | .del parent idx cid author date =>
      suggest_deletion doc parent idx cid author date
  | .repl parent idx frag delId insId author date =>
      suggest_replacement doc parent idx frag delId insId author date

def runOps : XNode → List SOp → Except EdErr XNode
  | doc, [] => .ok doc
  | doc, op :: ops => do runOps (← runOp doc op) ops

/-- No change-tracking marker element anywhere in the fragment forest. -/
def forestChangeFree (ns : List XNode) : Bool :=
  ns.all (fun n =>
    !subtreeHasTag "text:change-start" n && !subtreeHasTag "text:change-end" n &&
      !subtreeHasTag "text:change" n)

/-- A deletion target that does not itself carry change-tracking structure:
no markers, no tracked-changes container, and no `office:text` (under which
a fresh container could be created mid-operation) in its subtree. -/
def nodeTrackingFree (n : XNode) : Bool :=
  forestChangeFree [n] && !subtreeHasTag trackedChangesTag n &&
    !subtreeHasTag "office:text" n

/-- Hygiene of one operation against the current document: inserted
fragments carry no raw marker elements, and deletion targets neither carry
change-tracking structure nor sit directly inside the record container. -/
def hygienic (doc : XNode) : SOp → Bool
  | .ins _ _ frag _ _ _ => forestChangeFree frag
  | .del parent idx _ _ _ =>
      (match getAt doc (parent ++ [idx]) with
       | some n => nodeTrackingFree n
       | none => true) &&
      (match getAt doc parent with
       | some p => tagOf p != trackedChangesTag
       | none => true)
  | .repl parent idx frag _ _ _ _ =>
      forestChangeFree frag &&
      (match getAt doc (parent ++ [idx]) with
       | some n => nodeTrackingFree n
       | none => true) &&
      (match getAt doc parent with
       | some p => tagOf p != trackedChangesTag
       | none => true)

/-- Every marker's change-id is declared (the invariant behind a clean
validator run). -/
def markersDeclared (doc : XNode) : Bool :=
  (markersSeq doc).all (fun c => (docRegions doc).contains c)

/-- Every operation of the run is hygienic against the document state it
executes in. -/
def stepsOk : XNode → List SOp → Bool
  | _, [] => true
  | doc, op :: ops =>
      hygienic doc op &&
        (match runOp doc op with
         | .ok d => stepsOk d ops
         | .error _ => true)

/-! ### Serialization (`XMLEditor.save` via minidom `Document.toxml`)

`save` calls `self.dom.toxml(encoding=self.encoding)` and writes the bytes.
CPython's minidom serializes through an `io.TextIOWrapper(...,
errors="xmlcharrefreplace")`, so characters not representable in the target
encoding are written as decimal character references instead of raising. -/

/-- minidom `_write_data`: escape `&`, `<`, `"`, `>` in text and attribute
values. -/
def escapeData (s : List Char) : List Char :=
  s.flatMap (fun c =>
    if c = '&' then "&amp;".toList
    else if c = '<' then "&lt;".toList
    else if c = '"' then "&quot;".toList
    else if c = '>' then "&gt;".toList
    else [c])

def serializeAttrs : List (String × String) → List Char
  | [] => []
  | (k, v) :: rest =>
      " ".toList ++ k.toList ++ "=\"".toList ++ escapeData v.toList ++
        "\"".toList ++ serializeAttrs rest

mutual
/-- minidom `writexml` with empty indent/newline, as `toxml` uses it. -/
def serializeNode : XNode → List Char
  | .text d => escapeData d
  | .elem t a _ cs =>
      "<".toList ++ t.toList ++ serializeAttrs a ++
        (if cs.isEmpty then "/>".toList
         else ">".toList ++ serializeList cs ++ "</".toList ++ t.toList ++
           ">".toList)
def serializeList : List XNode → List Char
  | [] => []
  | n :: ns => serializeNode n ++ serializeList ns
end

/-- The decimal digit characters. -/
def digitChar : Nat → Char
  | 0 => '0' | 1 => '1' | 2 => '2' | 3 => '3' | 4 => '4'
  | 5 => '5' | 6 => '6' | 7 => '7' | 8 => '8' | 9 => '9'
  | _ + 10 => '0'

def natDigitsAux : Nat → Nat → List Char
  | 0, _ => []
  | fuel + 1, n =>
      if n < 10 then [digitChar n]
      else natDigitsAux fuel (n / 10) ++ [digitChar (n % 10)]

/-- Decimal digits of a natural number. -/
def natDigits (n : Nat) : List Char := natDigitsAux (n + 1) n

/-- One character as encoded by the `xmlcharrefreplace` error handler: for
an `ascii`-declared document a non-ASCII character becomes a decimal
character reference; representable characters pass through. -/
def encodeChar (ascii : Bool) (c : Char) : List Char :=
  if ascii && 128 ≤ c.toNat then
    "&#".toList ++ natDigits c.toNat ++ ";".toList
  else [c]

def encodeChars (ascii : Bool) (s : List Char) : List Char :=
  s.flatMap (encodeChar ascii)

/-- The XML declaration `Document.writexml` emits for the given declared
encoding; the detected encoding of `XMLEditor.__init__` is `"ascii"` iff
the header contains `encoding="ascii"`, else `"utf-8"`. -/
def xmlDeclaration (ascii : Bool) : List Char :=
  if ascii then "<?xml version=\"1.0\" encoding=\"ascii\"?>".toList
  else "<?xml version=\"1.0\" encoding=\"utf-8\"?>".toList

/-- `XMLEditor.save`: the bytes written back to the file.  There is no
failure path: unencodable characters are replaced by character
references. -/
def saveBytes (ascii : Bool) (doc : XNode) : List Char :=
  encodeChars ascii (xmlDeclaration ascii ++ serializeNode doc)

/-! ### The Content-Only Structural Validator
(`validate_content_only_changes._compare_elements`) over ElementTree-shaped
trees: an element has a tag, an attribute dict, the text before its first
child, the text following its own end tag (`tail`), and child elements. -/

inductive ETree : Type where
  | mk (tag : String) (attrib : List (String × String))
      (text tail : Option String) (children : List ETree)
deriving Repr

def etag : ETree → String
  | .mk t _ _ _ _ => t

def echildren : ETree → List ETree
  | .mk _ _ _ _ cs => cs

def closingBrace : Char := Char.ofNat 125

/-- `_strip_ns`: everything after the first closing brace, if any. -/
def afterBrace : List Char → Option (List Char)
  | [] => none
  | c :: rest => if c = closingBrace then some rest else afterBrace rest

def stripNs (s : String) : String :=
  match afterBrace s.toList with
  | some r => String.mk r
  | none => s

/-- Python `dict` equality on attribute lists: the same value (or absence)
for every key mentioned on either side. -/
def attrsEqv (a b : List (String × String)) : Bool :=
  (a.map Prod.fst ++ b.map Prod.fst).all (fun k => lookupA a k == lookupA b k)

/-- The comparator's path-qualified findings (standing for its error
strings). -/
inductive CmpErr where
  | tagMismatch (path : String)
  | contentAttrs (path : String)
  | contentChildren (path : String)
  | contentTail (path : String)
  | attrsChanged (path : String)
  | textChanged (path : String)
  | tailChanged (path : String)
  | childCount (path : String)
deriving DecidableEq, Repr

/-- The path label of a child: `path/strippedTag[idx]`. -/
def childPath (path : String) (child : ETree) (i : Nat) : String :=
  path ++ "/" ++ stripNs (etag child) ++ "[" ++ toString i ++ "]"

mutual
/-- `_compare_elements`: tag mismatch or any non-Content divergence records
one path-qualified error and abandons that subtree; a Content element
permits only text changes (attributes, child-freeness and tail are still
checked, each with its own error); sibling subtrees are compared
independently so errors accumulate across them. -/
def compareElems : ETree → ETree → String → List CmpErr
  | .mk ta aa txa tla ca, .mk tb ab txb tlb cb, path =>
      if ta ≠ tb then [.tagMismatch path]
      else if stripNs ta = "Content" then
        (if attrsEqv aa ab then [] else [.contentAttrs path]) ++
        (if ca.isEmpty && cb.isEmpty then [] else [.contentChildren path]) ++
        (if tla = tlb then [] else [.contentTail path])
      else if !attrsEqv aa ab then [.attrsChanged path]
      else if txa ≠ txb then [.textChanged path]
      else if tla ≠ tlb then [.tailChanged path]
      else if ca.length ≠ cb.length then [.childCount path]
      else compareChildren ca cb path 0
def compareChildren : List ETree → List ETree → String → Nat → List CmpErr
  | a :: as, b :: bs, path, i =>
      compareElems a b (childPath path a i) ++ compareChildren as bs path (i + 1)
  | _, _, _, _ => []
end

mutual
/-- Specification-side relation for C6: the two trees are identical except
possibly for the text of `Content`-tagged elements — which, per the
comparator's own rules, must be childless; attributes and tails agree
everywhere, and non-Content structure matches recursively. -/
def contentOnlyEqB : ETree → ETree → Bool
  | .mk ta aa txa tla ca, .mk tb ab txb tlb cb =>
      ta == tb &&
        (if stripNs ta = "Content" then
          attrsEqv aa ab && ca.isEmpty && cb.isEmpty && tla == tlb
        else
          attrsEqv aa ab && txa == txb && tla == tlb && contentOnlyEqL ca cb)
def contentOnlyEqL : List ETree → List ETree → Bool
  | [], [] => true
  | a :: as, b :: bs => contentOnlyEqB a b && contentOnlyEqL as bs
  | _, _ => false
end

/-- Navigate an ElementTree by child indices. -/
def getAtE : ETree → List Nat → Option ETree
  | e, [] => some e
  | .mk _ _ _ _ cs, i :: p =>
      match cs[i]? with
      | some c => getAtE c p
      | none => none

/-- Replace the attribute dict of the element at a path. -/
def setAttrsAt : List Nat → List (String × String) → ETree → ETree
  | [], newA, .mk t _ tx tl cs => .mk t newA tx tl cs
  | i :: p, newA, .mk t a tx tl cs =>
      match cs[i]? with
      | some c => .mk t a tx tl (cs.set i (setAttrsAt p newA c))
      | none => .mk t a tx tl cs

/-- The comparator's path label for the element at a child-index path,
given the label of the root. -/
def pathStringAt : ETree → List Nat → String → String
  | _, [], base => base
  | .mk _ _ _ _ cs, i :: p, base =>
      match cs[i]? with
      | some c => pathStringAt c p (childPath base c i)
      | none => base

/-! ### Concrete documents used to instantiate the theorems -/

/-- A small document with two `p` elements (one attribute apart) and a `q`
element, with recorded parse lines. -/
def c1doc : XNode :=
  .elem "r" [] (some 1)
    [.elem "p" [("a", "1")] (some 2) [.text "xy".toList],
     .elem "p" [("a", "2")] (some 3) [],
     .elem "q" [] (some 4) []]

/-- An element whose text is split as `"a b a"`, a whitespace-only run, and
`"b"`: its ws-omitted concatenation is `"a b ab"`. -/
def c10elem : XNode :=
  .elem "p" [] none
    [.text "a b a".toList, .text " ".toList, .text "b".toList]

/-- An element all of whose descendant text is whitespace. -/
def c10ws : XNode :=
  .elem "p" [] none
    [.text "  ".toList, .elem "s" [] none [.text "\t".toList]]

/-- A document with two declared change records, one referenced only by a
start marker (count imbalance) and one never referenced. -/
def c5doc : XNode :=
  .elem "office:document-content" [] none
    [.elem "office:text" [] none
      [.elem "text:tracked-changes" [] none
        [.elem "text:changed-region" [("text:id", "r1")] none [],
         .elem "text:changed-region" [("text:id", "r2")] none []],
       .elem "text:change-start" [("text:change-id", "r1")] none [],
       .elem "text:p" [] none [.text "hi".toList]]]

/-- A `Content` element that (unusually) has a child element. -/
def c6content : ETree := .mk "Content" [] none none [.mk "X" [] none none []]

/-- A story tree: a Content element and a sibling with one attribute. -/
def c6a : ETree :=
  .mk "Root" [] none none
    [.mk "Content" [] (some "before") none [],
     .mk "B" [("x", "1")] none none []]

/-- `c6a` with only the Content text changed. -/
def c6b : ETree :=
  .mk "Root" [] none none
    [.mk "Content" [] (some "after") none [],
     .mk "B" [("x", "1")] none none []]

/-- Three sibling elements under a root, for ranged-marker insertion. -/
def c3doc : XNode :=
  .elem "r" [] none
    [.elem "p" [] none [], .elem "q" [] none [], .elem "s" [] none []]

/-- A clean content document: no tracked changes, one paragraph. -/
def c2doc0 : XNode :=
  .elem "office:document-content" [] none
    [.elem "office:text" [] none
      [.elem "text:p" [] none [.text "Hello".toList]]]

/-- A two-element fragment. -/
def c3frag : List XNode := [.elem "text:x" [] none [], .elem "text:y" [] none []]

/-- The document produced by suggesting the two-element insertion after the
paragraph of `c2doc0`. -/
def c3run : XNode :=
  match suggest_insertion c2doc0 [0] 0 c3frag "ct1" "A" "D" with
  | .ok d => d
  | .error _ => .text []

/-- The body (office:text) children of `c3run`. -/
def c3body : List XNode := childrenOf ((getAt c3run [0]).getD (.text []))

/-- The three marker tags the validator collects. -/
def markerTags : List String :=
  ["text:change-start", "text:change-end", "text:change"]

/-- A one-element fragment. -/
def c2frag1 : List XNode := [.elem "text:p" [] none [.text "Hi".toList]]

/-- The document produced by a single-element suggested insertion on the
clean document. -/
def c2run1 : XNode :=
  match suggest_insertion c2doc0 [0] 0 c2frag1 "ct1" "A" "D" with
  | .ok d => d
  | .error _ => .text []

/-- The tracked-changes container of `c2run1` (child 0 of the body). -/
def c2container : XNode := (getAt c2run1 [0, 0]).getD (.text [])

/-- The change record (`text:changed-region`) of `c2run1`. -/
def c2region : XNode := (getAt c2run1 [0, 0, 0]).getD (.text [])

/-- `c2run1` with the change record deleted from the container, its two
range markers left in the body. -/
def c2run1del : XNode := (removeNodeAt c2run1 [0, 0] 0).getD (.text [])

/-! ## Theorems -/

/-- The scan loop of `get_node` retains exactly the elements passing the
AND-composition of the supplied filters. -/
theorem scanMatches_eq_filter (u : List Char → List Char)
    (attrs : Option (List (String × String))) (line : Option LineSel)
    (contains : Option (List Char)) :
    ∀ l : List XNode,
      scanMatches u attrs line contains l =
        l.filter (nodeMatches u attrs line contains)
  | [] => rfl
  | e :: rest => by
      simp only [scanMatches, List.filter_cons]
      rw [scanMatches_eq_filter u attrs line contains rest]
      rcases line with _ | sel <;> rcases attrs with _ | want <;>
          rcases contains with _ | needle <;>
        simp only [nodeMatches, Bool.not_true, Bool.not_false, Bool.false_or,
          Bool.or_false, Bool.true_and, Bool.and_true] <;>
        (try by_cases h1 : lineOk sel (posOf e) = true) <;>
        (try by_cases h2 : attrsOk want (attrsOf e) = true) <;>
        (try by_cases h3 : strContains (getElementText e) (u needle) = true) <;>
        simp_all

/-- C1: for every parsed document and every `get_node(tag, attrs?,
line_number?, contains?)` call, the supplied predicates are AND-composed
over all elements with the given tag in document order; exactly one
survivor is returned, zero survivors raise the NotFound-style error with
its hint, and two or more raise the Ambiguous-style error — never an
arbitrary pick.  The locator is a pure function of the document (it returns
an element, not a modified tree), so it never mutates. -/
theorem C1_locator_trichotomy (u : List Char → List Char) (doc : XNode)
    (tag : String) (attrs : Option (List (String × String)))
    (line : Option LineSel) (contains : Option (List Char)) :
    (∀ m, (elemsByTag tag doc).filter (nodeMatches u attrs line contains) = [m] →
        get_node u doc tag attrs line contains = .ok m) ∧
    ((elemsByTag tag doc).filter (nodeMatches u attrs line contains) = [] →
        get_node u doc tag attrs line contains =
          .error (.notFound tag (notFoundHint attrs line contains))) ∧
    (2 ≤ ((elemsByTag tag doc).filter (nodeMatches u attrs line contains)).length →
        get_node u doc tag attrs line contains = .error (.ambiguous tag)) := by
  have h := scanMatches_eq_filter u attrs line contains (elemsByTag tag doc)
  refine ⟨fun m hm => ?_, fun hm => ?_, fun hm => ?_⟩
  · rw [get_node, h, hm]
  · rw [get_node, h, hm]
  · rw [get_node, h]
    rcases hl : (elemsByTag tag doc).filter (nodeMatches u attrs line contains) with
      _ | ⟨a, _ | ⟨b, rest⟩⟩
    · rw [hl] at hm; simp at hm
    · rw [hl] at hm; simp at hm
    · rfl

/-- C1 witness: on `c1doc`, an attribute query with a unique match returns
it, an unknown tag raises NotFound with the generic hint, and a bare tag
query with two candidates raises Ambiguous. -/
theorem C1_locator_witness :
    get_node id c1doc "p" (some [("a", "1")]) none none =
      .ok (XNode.elem "p" [("a", "1")] (some 2) [.text "xy".toList]) ∧
    get_node id c1doc "z" none none none =
      .error (.notFound "z" "Try adding filters (attrs, line_number, or contains).") ∧
    get_node id c1doc "p" none none none = .error (.ambiguous "p") :=
  ⟨(C1_locator_trichotomy id c1doc "p" (some [("a", "1")]) none none).1 _ (by rfl),
   (C1_locator_trichotomy id c1doc "z" none none none).2.1 (by rfl),
   (C1_locator_trichotomy id c1doc "p" none none none).2.2 (by decide)⟩

mutual
/-- `_get_element_text` equals the concatenation of descendant text runs
with every whitespace-only run omitted entirely. -/
theorem getElementText_spec :
    ∀ n : XNode, getElementText n = ((textDatas n).filter hasNonWs).flatten
  | .text d => by
      simp only [getElementText, textDatas]
      cases h : hasNonWs d <;> simp [List.filter, h]
  | .elem t a p cs => by
      simp only [getElementText, textDatas]; exact childListText_spec cs
theorem childListText_spec :
    ∀ ns : List XNode, childListText ns = ((textDatasL ns).filter hasNonWs).flatten
  | [] => rfl
  | n :: ns => by
      rw [childListText, textDatasL, List.filter_append, List.flatten_append,
        getElementText_spec n, childListText_spec ns]
end

/-- C10 (amended): the text `get_node`'s `contains` is matched against is
the concatenation of descendant text runs with whitespace-only runs omitted
entirely; hence an element whose descendant text is all whitespace matches
no non-empty needle.  (A needle spanning an omitted whitespace-only run can
still match when it coincidentally occurs in the ws-omitted concatenation —
see the counterexample — so matching is exactly containment in that
concatenation, not a guaranteed failure.) -/
theorem C10_ws_text_omitted :
    (∀ n : XNode, getElementText n = ((textDatas n).filter hasNonWs).flatten) ∧
    (∀ (n : XNode) (needle : List Char),
        ((textDatas n).all fun d => !hasNonWs d) = true → needle ≠ [] →
        strContains (getElementText n) needle = false) := by
  refine ⟨getElementText_spec, fun n needle hall hne => ?_⟩
  have h1 : (textDatas n).filter hasNonWs = [] := by
    rw [List.filter_eq_nil_iff]
    intro d hd
    have hw := (List.all_eq_true.mp hall) d hd
    simp only [Bool.not_eq_true'] at hw
    simp [hw]
  rw [getElementText_spec n, h1]
  cases needle with
  | nil => exact absurd rfl hne
  | cons c cn => rfl

/-- C10 counterexample: the needle `"a b"` spans the omitted
whitespace-only middle run of `c10elem` (it is a non-ws suffix, the ws run,
and a non-ws prefix), yet `get_node` with `contains="a b"` matches the
element, because `"a b"` also occurs in the ws-omitted concatenation
`"a b ab"`. -/
theorem C10_ce :
    hasNonWs " ".toList = false ∧
    "a b".toList = "a".toList ++ " ".toList ++ "b".toList ∧
    getElementText c10elem = "a b ab".toList ∧
    get_node id c10elem "p" none none (some "a b".toList) = .ok c10elem :=
  ⟨by decide, by decide, by decide, by rfl⟩

/-- C10 witness: an element whose only descendant text is whitespace never
matches a non-empty `contains` needle. -/
theorem C10_witness : strContains (getElementText c10ws) "x".toList = false :=
  C10_ws_text_omitted.2 c10ws "x".toList (by decide) (by decide)

/-- One `insert_after` iteration always amounts to insertion at `i + 1`:
`appendChild` when there is no next sibling coincides with it. -/
theorem insertAfterStep_eq (cs : List XNode) (i : Nat) (n : XNode) :
    insertAfterStep cs i n = listInsertAt cs (i + 1) [n] := by
  unfold insertAfterStep listInsertAt
  cases h : cs[i + 1]? with
  | none =>
      have hlen : cs.length ≤ i + 1 := List.getElem?_eq_none_iff.mp h
      simp [List.take_of_length_le hlen, List.drop_eq_nil_of_le hlen]
  | some c => rfl

/-- The `insert_after` loop inserts the whole fragment right after index
`i` — in reverse order, because each iteration inserts in front of the
node placed by the previous one. -/
theorem insertAfterLoop_eq :
    ∀ (ns cs : List XNode) (i : Nat), i < cs.length →
      insertAfterLoop cs i ns = cs.take (i + 1) ++ ns.reverse ++ cs.drop (i + 1)
  | [], cs, i, _ => by simp [insertAfterLoop]
  | n :: ns, cs, i, h => by
      rw [insertAfterLoop, insertAfterStep_eq]
      rw [insertAfterLoop_eq ns (listInsertAt cs (i + 1) [n]) i
        (by simp [listInsertAt]; omega)]
      have h1 : (cs.take (i + 1)).length = i + 1 := by
        rw [List.length_take]; omega
      simp only [listInsertAt, List.append_assoc, List.take_append_eq_append_take,
        List.drop_append_eq_append_drop, h1, Nat.sub_self, List.take_zero,
        List.drop_zero, List.append_nil, List.nil_append,
        List.take_of_length_le (Nat.le_of_eq h1),
        List.drop_eq_nil_of_le (Nat.le_of_eq h1), List.reverse_cons]
      simp [Nat.zero_sub]

/-- The `insert_before` loop preserves fragment order: each node is placed
immediately before the (right-shifting) target. -/
theorem insertBeforeLoop_eq :
    ∀ (ns cs : List XNode) (i : Nat), i ≤ cs.length →
      insertBeforeLoop cs i ns = cs.take i ++ ns ++ cs.drop i
  | [], cs, i, _ => by simp [insertBeforeLoop]
  | n :: ns, cs, i, h => by
      rw [insertBeforeLoop]
      rw [insertBeforeLoop_eq ns (listInsertAt cs i [n]) (i + 1)
        (by simp [listInsertAt]; omega)]
      have h1 : (cs.take i).length = i := by rw [List.length_take]; omega
      have h2 : ((cs.take i).length + 1) = i + 1 := by omega
      simp only [listInsertAt, List.append_assoc, List.take_append_eq_append_take,
        List.drop_append_eq_append_drop, h1]
      have h3 : i + 1 - i = 1 := by omega
      simp [h3, List.take_of_length_le (Nat.le_of_eq h1),
        List.drop_eq_nil_of_le (Nat.le_succ_of_le (Nat.le_of_eq h1)),
        List.take_of_length_le (Nat.le_succ_of_le (Nat.le_of_eq h1))]

/-- C4 (amended): `insert_after` does place all fragment nodes as the
immediately-following siblings of the target, and the no-next-sibling case
appends instead of failing — but the nodes come out in REVERSED fragment
order: each loop iteration re-reads `elem.nextSibling`, so it inserts in
front of the node placed by the previous iteration. -/
theorem C4_insert_after_reversed (cs : List XNode) (i : Nat) (ns : List XNode)
    (h : i < cs.length) :
    insertAfterLoop cs i ns = cs.take (i + 1) ++ ns.reverse ++ cs.drop (i + 1) :=
  insertAfterLoop_eq ns cs i h

/-- C4 witness: inserting a two-node fragment after a last child (no next
sibling) succeeds and yields the reversed block. -/
theorem C4_insert_after_reversed_witness :
    insertAfterLoop [XNode.elem "e" [] none []] 0
        [XNode.elem "n1" [] none [], XNode.elem "n2" [] none []] =
      [XNode.elem "e" [] none [], XNode.elem "n2" [] none [],
        XNode.elem "n1" [] none []] :=
  (C4_insert_after_reversed [XNode.elem "e" [] none []] 0
    [XNode.elem "n1" [] none [], XNode.elem "n2" [] none []] (by decide)).trans
    (by rfl)

/-- C4 counterexample: the claim's "in the fragment's original order" fails
— after target `e`, fragment `[n1, n2]` lands as `n2, n1`. -/
theorem C4_insert_after_ce :
    (insertAfterLoop [XNode.elem "e" [] none []] 0
        [XNode.elem "n1" [] none [], XNode.elem "n2" [] none []]).map tagOf =
      ["e", "n2", "n1"] ∧
    (insertAfterLoop [XNode.elem "e" [] none []] 0
        [XNode.elem "n1" [] none [], XNode.elem "n2" [] none []]).map tagOf ≠
      ["e", "n1", "n2"] :=
  ⟨by rfl, by decide⟩

/-- The error a bad fragment produces: parse failure for malformed input,
otherwise the empty-fragment assertion. -/
def badFragErr : Option (List XNode) → EdErr
  | none => .malformedFragment
  | some _ => .emptyFragment

/-- C7: a fragment that is malformed or yields zero element nodes
(whitespace-only included) makes every mutation operation fail:
`_parse_fragment` runs before any insertion or removal, so the error
propagates and no mutated document is produced — the tree is exactly as it
was before the call. -/
theorem C7_bad_fragment_rejected (doc : XNode) (parent p : Path) (idx : Nat)
    (fr : Option (List XNode))
    (h : match fr with
         | none => True
         | some ns => hasElemNode ns = false) :
    parse_fragment fr = .error (badFragErr fr) ∧
    replace_node doc parent idx fr = .error (badFragErr fr) ∧
    insert_before doc parent idx fr = .error (badFragErr fr) ∧
    insert_after doc parent idx fr = .error (badFragErr fr) ∧
    append_to doc p fr = .error (badFragErr fr) := by
  rcases fr with _ | ns
  · exact ⟨rfl, rfl, rfl, rfl, rfl⟩
  · simp only at h
    have hp : parse_fragment (some ns) = .error .emptyFragment := by
      simp [parse_fragment, h]
    refine ⟨hp, ?_, ?_, ?_, ?_⟩ <;>
      simp [replace_node, insert_before, insert_after, append_to, hp, badFragErr,
        Bind.bind, Except.bind]

/-- C7 witness: a whitespace-only fragment (a single text node) is rejected
by all four operations with the empty-fragment error. -/
theorem C7_bad_fragment_witness :
    parse_fragment (some [XNode.text "  ".toList]) = .error .emptyFragment ∧
    replace_node c1doc [] 0 (some [XNode.text "  ".toList]) =
      .error .emptyFragment := by
  have h := C7_bad_fragment_rejected c1doc [] [] 0
    (some [XNode.text "  ".toList]) (by decide)
  exact ⟨h.1, h.2.1⟩

/-- C8: `add_change_record` validates the change kind first — a kind
outside {insertion, deletion, format-change} fails with the
InvalidChangeKind error before `ensure_tracked_changes` or any node
construction runs, so no container is created, no record is added, and no
mutated document is produced. -/
theorem C8_invalid_kind (doc : XNode) (change_type author date : String)
    (payload : Option (List XNode)) (cid : String)
    (h : validChangeKinds.contains change_type = false) :
    add_change_record doc change_type author date payload cid =
      .error .invalidChangeKind := by
  simp only [add_change_record]
  rw [if_neg (show ¬ validChangeKinds.contains change_type = true by
    simp only [List.contains, List.elem_eq_mem] at h
    simpa using h)]

/-- C8 witness: the kind `"bogus"` is rejected. -/
theorem C8_invalid_kind_witness :
    add_change_record (XNode.elem "office:document-content" [] none [])
      "bogus" "A" "2024-01-01T00:00:00Z" none "c1" = .error .invalidChangeKind :=
  C8_invalid_kind _ "bogus" "A" "2024-01-01T00:00:00Z" none "c1" (by decide)

theorem mem_foldl_firstOcc (a : String) :
    ∀ (l acc : List String),
      a ∈ l.foldl (fun acc s => if s ∈ acc then acc else acc ++ [s]) acc ↔
        a ∈ acc ∨ a ∈ l
  | [], acc => by simp
  | x :: l, acc => by
      rw [List.foldl_cons, mem_foldl_firstOcc a l _]
      by_cases hx : x ∈ acc <;>
        simp [hx, List.mem_append, List.mem_cons] <;> aesop

theorem mem_firstOcc (a : String) (l : List String) :
    a ∈ firstOcc l ↔ a ∈ l := by
  rw [firstOcc, mem_foldl_firstOcc]; simp

theorem string_contains_mem (l : List String) (a : String) :
    l.contains a = true ↔ a ∈ l := by
  simp [List.contains, List.elem_eq_mem]

theorem validateErrors_eq_nil_iff (doc : XNode) :
    validateErrors doc = [] ↔ ∀ c ∈ markersSeq doc, c ∈ docRegions doc := by
  rw [validateErrors, List.filter_eq_nil_iff]
  simp [List.contains, List.elem_eq_mem]

/-- C5: the validator's exit status is failure (1) iff at least one marker
element (change-start, change-end, or point change) carries a non-empty
change-id declared by no changed-region; a change-id with more start than
end markers and a declared change-id never referenced by any marker each
only contribute a warning, and the exit status is decided solely by the
error list. -/
theorem C5_validator_exit (doc : XNode) :
    (validateRet doc = 1 ↔ ∃ c ∈ markersSeq doc, c ∉ docRegions doc) ∧
    (validateRet doc = 0 ↔ validateErrors doc = []) ∧
    (∀ cid, (taggedIds "text:change-end" doc).count cid <
        (taggedIds "text:change-start" doc).count cid →
      VWarn.imbalance cid ((taggedIds "text:change-start" doc).count cid)
          ((taggedIds "text:change-end" doc).count cid) ∈ validateWarnings doc) ∧
    (∀ cid, cid ∈ docRegions doc → cid ∉ markersSeq doc →
      VWarn.unreferenced cid ∈ validateWarnings doc) := by
  refine ⟨?_, ?_, fun cid hcount => ?_, fun cid hdecl hnoref => ?_⟩
  · rw [validateRet]
    by_cases he : validateErrors doc = []
    · rw [if_pos he]
      have hall := (validateErrors_eq_nil_iff doc).mp he
      simp only [Nat.zero_ne_one, false_iff]
      rintro ⟨c, hc, hnot⟩
      exact hnot (hall c hc)
    · rw [if_neg he]
      simp only [true_iff]
      have := (not_iff_not.mpr (validateErrors_eq_nil_iff doc)).mp he
      push_neg at this
      rcases this with ⟨c, hc, hnot⟩
      exact ⟨c, hc, hnot⟩
  · rw [validateRet]
    by_cases he : validateErrors doc = []
    · rw [if_pos he]; simp [he]
    · rw [if_neg he]; simp [he]
  · rw [validateWarnings]
    refine List.mem_append.mpr (Or.inl ?_)
    refine List.mem_filterMap.mpr ⟨cid, ?_, ?_⟩
    · rw [mem_firstOcc]
      rw [← List.count_pos_iff]
      omega
    · rw [if_pos hcount]
  · rw [validateWarnings]
    refine List.mem_append.mpr (Or.inr ?_)
    refine List.mem_filterMap.mpr ⟨cid, ?_, ?_⟩
    · rw [mem_firstOcc]; exact hdecl
    · rw [if_neg]
      intro hc
      exact hnoref ((string_contains_mem _ _).mp hc)

/-- C5 witness: on `c5doc` the exit status is success while both warning
kinds are reported. -/
theorem C5_validator_witness :
    validateRet c5doc = 0 ∧
    VWarn.imbalance "r1" 1 0 ∈ validateWarnings c5doc ∧
    VWarn.unreferenced "r2" ∈ validateWarnings c5doc := by
  refine ⟨(C5_validator_exit c5doc).2.1.mpr (by rfl), ?_, ?_⟩
  · exact (C5_validator_exit c5doc).2.2.1 "r1" (by decide)
  · exact (C5_validator_exit c5doc).2.2.2 "r2" (by decide) (by decide)

theorem lookupA_eq_none :
    ∀ (l : List (String × String)) (k : String),
      k ∉ l.map Prod.fst → lookupA l k = none
  | [], _, _ => rfl
  | (k1, v1) :: rest, k, h => by
      rw [lookupA]
      simp only [List.map_cons, List.mem_cons, not_or] at h
      rw [if_neg (fun he => h.1 he.symm)]
      exact lookupA_eq_none rest k h.2

theorem attrsEqv_iff (a b : List (String × String)) :
    attrsEqv a b = true ↔ ∀ k, lookupA a k = lookupA b k := by
  rw [attrsEqv, List.all_eq_true]
  constructor
  · intro h k
    by_cases hk : k ∈ a.map Prod.fst ++ b.map Prod.fst
    · have := h k hk; simpa using this
    · rw [List.mem_append] at hk
      push_neg at hk
      rw [lookupA_eq_none a k hk.1, lookupA_eq_none b k hk.2]
  · intro h k _
    simp [h k]

theorem contentOnlyEqL_length :
    ∀ (as bs : List ETree), contentOnlyEqL as bs = true → as.length = bs.length
  | [], [], _ => rfl
  | [], _ :: _, h => by simp [contentOnlyEqL] at h
  | _ :: _, [], h => by simp [contentOnlyEqL] at h
  | a :: as, b :: bs, h => by
      rw [contentOnlyEqL, Bool.and_eq_true] at h
      simp [contentOnlyEqL_length as bs h.2]

theorem contentOnlyEqL_get :
    ∀ (as bs : List ETree) (i : Nat) (x y : ETree), contentOnlyEqL as bs = true →
      as[i]? = some x → bs[i]? = some y → contentOnlyEqB x y = true
  | [], _, _, _, _, _, hx, _ => by simp at hx
  | _ :: _, [], _, _, _, h, _, _ => by simp [contentOnlyEqL] at h
  | a :: as, b :: bs, 0, x, y, h, hx, hy => by
      rw [contentOnlyEqL, Bool.and_eq_true] at h
      simp only [List.getElem?_cons_zero, Option.some.injEq] at hx hy
      rw [← hx, ← hy]
      exact h.1
  | a :: as, b :: bs, i + 1, x, y, h, hx, hy => by
      rw [contentOnlyEqL, Bool.and_eq_true] at h
      exact contentOnlyEqL_get as bs i x y h.2 (by simpa using hx) (by simpa using hy)

mutual
/-- Trees identical except for Content text (Content childless) compare
clean. -/
theorem compare_nil_of_eqv :
    ∀ (a b : ETree) (path : String), contentOnlyEqB a b = true →
      compareElems a b path = []
  | .mk ta aa txa tla ca, .mk tb ab txb tlb cb, path, h => by
      rw [contentOnlyEqB] at h
      rw [Bool.and_eq_true, beq_iff_eq] at h
      obtain ⟨hteq, hrest⟩ := h
      subst hteq
      rw [compareElems, if_neg (by simp)]
      by_cases hc : stripNs ta = "Content"
      · rw [if_pos hc]
        rw [if_pos hc] at hrest
        simp only [Bool.and_eq_true, beq_iff_eq] at hrest
        obtain ⟨⟨⟨ha, hca⟩, hcb⟩, htl⟩ := hrest
        rw [if_pos ha, if_pos (by rw [hca, hcb]; rfl), if_pos htl]
        rfl
      · rw [if_neg hc]
        rw [if_neg hc] at hrest
        simp only [Bool.and_eq_true, beq_iff_eq] at hrest
        obtain ⟨⟨⟨ha, htx⟩, htl⟩, hl⟩ := hrest
        rw [if_neg (by simp [ha]), if_neg (by simp [htx]), if_neg (by simp [htl]),
          if_neg (by simp [contentOnlyEqL_length ca cb hl])]
        exact compareChildren_nil_of_eqv ca cb path 0 hl
theorem compareChildren_nil_of_eqv :
    ∀ (as bs : List ETree) (path : String) (i : Nat), contentOnlyEqL as bs = true →
      compareChildren as bs path i = []
  | [], bs, path, i, _ => by cases bs <;> rfl
  | _ :: _, [], _, _, h => by simp [contentOnlyEqL] at h
  | a :: as, b :: bs, path, i, h => by
      rw [contentOnlyEqL, Bool.and_eq_true] at h
      rw [compareChildren, compare_nil_of_eqv a b _ h.1,
        compareChildren_nil_of_eqv as bs path (i + 1) h.2]
      rfl
end

/-- Sibling subtrees are still compared around a patched child: with all
pairs content-only-equal and the child at `i` replaced, the comparison of
the child list yields exactly the patched child's findings. -/
theorem compareChildren_single :
    ∀ (as bs : List ETree) (i : Nat) (z : ETree) (path : String) (k : Nat)
      (errs : List CmpErr) (ai : ETree),
      contentOnlyEqL as bs = true →
      as[i]? = some ai →
      compareElems ai z (childPath path ai (k + i)) = errs →
      compareChildren as (bs.set i z) path k = errs
  | [], _, _, _, _, _, _, _, _, hai, _ => by simp at hai
  | _ :: _, [], _, _, _, _, _, _, h, _, _ => by simp [contentOnlyEqL] at h
  | a :: as, b :: bs, 0, z, path, k, errs, ai, h, hai, hcmp => by
      rw [contentOnlyEqL, Bool.and_eq_true] at h
      simp only [List.getElem?_cons_zero, Option.some.injEq] at hai
      subst hai
      rw [List.set_cons_zero, compareChildren,
        compareChildren_nil_of_eqv as bs path (k + 1) h.2, List.append_nil]
      simpa using hcmp
  | a :: as, b :: bs, i + 1, z, path, k, errs, ai, h, hai, hcmp => by
      rw [contentOnlyEqL, Bool.and_eq_true] at h
      rw [List.set_cons_succ, compareChildren,
        compare_nil_of_eqv a b _ h.1, List.nil_append]
      exact compareChildren_single as bs i z path (k + 1) errs ai h.2
        (by simpa using hai)
        (by rw [show k + 1 + i = k + (i + 1) by omega]; exact hcmp)

/-- Patching the attributes of one non-Content element of an otherwise
content-only-equal pair yields exactly one path-qualified attribute
violation. -/
theorem compare_patched :
    ∀ (p : List Nat) (a b0 : ETree) (path : String)
      (newA : List (String × String)) (t : String)
      (a0 : List (String × String)) (tx tl : Option String) (cs : List ETree),
      contentOnlyEqB a b0 = true →
      getAtE b0 p = some (.mk t a0 tx tl cs) →
      stripNs t ≠ "Content" →
      attrsEqv a0 newA = false →
      compareElems a (setAttrsAt p newA b0) path =
        [.attrsChanged (pathStringAt a p path)]
  | [], .mk ta aa txa tla ca, .mk tb ab txb tlb cb, path, newA, t, a0, tx, tl, cs,
      heqv, hget, hnc, hfa => by
      simp only [getAtE, Option.some.injEq, ETree.mk.injEq] at hget
      obtain ⟨ht, ha0, htx, htl, hcs⟩ := hget
      subst ht; subst ha0; subst htx; subst htl; subst hcs
      rw [contentOnlyEqB, Bool.and_eq_true, beq_iff_eq] at heqv
      obtain ⟨hteq, hrest⟩ := heqv
      subst hteq
      rw [if_neg hnc] at hrest
      simp only [Bool.and_eq_true, beq_iff_eq] at hrest
      obtain ⟨⟨⟨ha, htx⟩, htl⟩, hl⟩ := hrest
      rw [setAttrsAt, compareElems, if_neg (by simp)]
      rw [if_neg hnc]
      have hfalse : attrsEqv aa newA = false := by
        rcases hb : attrsEqv aa newA with _ | _
        · rfl
        · exfalso
          have h1 := (attrsEqv_iff aa ab).mp ha
          have h2 := (attrsEqv_iff aa newA).mp hb
          have : attrsEqv ab newA = true :=
            (attrsEqv_iff ab newA).mpr fun k => (h1 k).symm.trans (h2 k)
          rw [this] at hfa; cases hfa
      rw [if_pos (by simp [hfalse])]
      rw [pathStringAt]
  | i :: q, .mk ta aa txa tla ca, .mk tb ab txb tlb cb, path, newA, t, a0, tx, tl, cs,
      heqv, hget, hnc, hfa => by
      rw [contentOnlyEqB, Bool.and_eq_true, beq_iff_eq] at heqv
      obtain ⟨hteq, hrest⟩ := heqv
      subst hteq
      simp only [getAtE] at hget
      rcases hcb : cb[i]? with _ | c
      · rw [hcb] at hget; cases hget
      · rw [hcb] at hget
        by_cases hcont : stripNs ta = "Content"
        · rw [if_pos hcont] at hrest
          simp only [Bool.and_eq_true] at hrest
          have : cb = [] := by
            have := hrest.1.2
            simpa [List.isEmpty_iff] using this
          subst this; simp at hcb
        · rw [if_neg hcont] at hrest
          simp only [Bool.and_eq_true, beq_iff_eq] at hrest
          obtain ⟨⟨⟨ha, htx⟩, htl⟩, hl⟩ := hrest
          have hilt : i < cb.length := by
            by_contra hge
            rw [List.getElem?_eq_none (by omega)] at hcb; cases hcb
          have hlen : ca.length = cb.length := contentOnlyEqL_length ca cb hl
          have hailt : i < ca.length := by omega
          rw [setAttrsAt, hcb, compareElems, if_neg (by simp), if_neg hcont,
            if_neg (by simp [ha]), if_neg (by simp [htx]), if_neg (by simp [htl]),
            if_neg (by simp [hlen])]
          have hgai : ca[i]? = some ((ca.get ⟨i, hailt⟩)) := List.getElem?_eq_some_iff.mpr ⟨hailt, rfl⟩
          have ih := compare_patched q ((ca.get ⟨i, hailt⟩)) c (childPath path ((ca.get ⟨i, hailt⟩)) i)
            newA t a0 tx tl cs
            (contentOnlyEqL_get ca cb i _ c hl hgai hcb) hget hnc hfa
          have := compareChildren_single ca cb i (setAttrsAt q newA c) path 0
            [.attrsChanged (pathStringAt ((ca.get ⟨i, hailt⟩)) q (childPath path ((ca.get ⟨i, hailt⟩)) i))]
            ((ca.get ⟨i, hailt⟩)) hl hgai (by simpa using ih)
          rw [this]
          rw [pathStringAt, hgai]

/-- C6 (amended): if two story trees are identical except for the text of
`Content`-tagged elements and every `Content` element is childless, the
Content-Only Structural Validator returns an empty error list (a `Content`
element with child elements is itself reported, even between identical
trees — see the counterexample); if additionally exactly one non-Content
element's attribute dict is changed, the validator reports exactly one
path-qualified violation naming that element, sibling subtrees still being
checked. -/
theorem C6_content_only_validator :
    (∀ (a b : ETree) (path : String), contentOnlyEqB a b = true →
        compareElems a b path = []) ∧
    (∀ (p : List Nat) (a b0 : ETree) (path : String)
        (newA : List (String × String)) (t : String)
        (a0 : List (String × String)) (tx tl : Option String) (cs : List ETree),
        contentOnlyEqB a b0 = true →
        getAtE b0 p = some (.mk t a0 tx tl cs) →
        stripNs t ≠ "Content" →
        attrsEqv a0 newA = false →
        compareElems a (setAttrsAt p newA b0) path =
          [.attrsChanged (pathStringAt a p path)]) :=
  ⟨compare_nil_of_eqv, compare_patched⟩

/-- C6 counterexample: two byte-identical trees (trivially "identical
except for Content text") whose `Content` element has a child are reported
as a violation, so the claim's pass verdict fails as stated. -/
theorem C6_content_only_ce :
    compareElems c6content c6content "Story.xml/Content" =
      [.contentChildren "Story.xml/Content"] := by decide

/-- C6 witness: a Content-text-only change passes; additionally patching
one sibling's attributes yields exactly the one violation naming it. -/
theorem C6_content_only_witness :
    compareElems c6a c6b "story" = [] ∧
    compareElems c6a (setAttrsAt [1] [("x", "2")] c6b) "story" =
      [.attrsChanged "story/B[1]"] := by
  constructor
  · exact C6_content_only_validator.1 c6a c6b "story" (by decide)
  · exact C6_content_only_validator.2 [1] c6a c6b "story" [("x", "2")]
      "B" [("x", "1")] none none [] (by decide) (by rfl) (by decide) (by decide)

theorem digitChar_ascii : ∀ k : Nat, (digitChar k).toNat ≤ 127
  | 0 => by decide
  | 1 => by decide
  | 2 => by decide
  | 3 => by decide
  | 4 => by decide
  | 5 => by decide
  | 6 => by decide
  | 7 => by decide
  | 8 => by decide
  | 9 => by decide
  | _ + 10 => by
      show Char.toNat '0' ≤ 127
      decide

theorem natDigitsAux_ascii : ∀ (fuel n : Nat), ∀ c ∈ natDigitsAux fuel n, c.toNat ≤ 127
  | 0, n => by simp [natDigitsAux]
  | fuel + 1, n => by
      intro c hc
      rw [natDigitsAux] at hc
      by_cases h : n < 10
      · rw [if_pos h] at hc
        simp only [List.mem_singleton] at hc
        subst hc; exact digitChar_ascii n
      · rw [if_neg h] at hc
        rcases List.mem_append.mp hc with h2 | h2
        · exact natDigitsAux_ascii fuel (n / 10) c h2
        · simp only [List.mem_singleton] at h2
          subst h2; exact digitChar_ascii (n % 10)

theorem encodeChar_ascii (c : Char) : ∀ x ∈ encodeChar true c, x.toNat ≤ 127 := by
  intro x hx
  rw [encodeChar] at hx
  by_cases h : 128 ≤ c.toNat
  · rw [if_pos (by simpa using h)] at hx
    rcases List.mem_append.mp hx with h2 | h2
    · rcases List.mem_append.mp h2 with h3 | h3
      · rw [show "&#".toList = ['&', '#'] from rfl] at h3
        simp only [List.mem_cons, List.not_mem_nil, or_false] at h3
        rcases h3 with rfl | rfl <;> decide
      · exact natDigitsAux_ascii _ _ x h3
    · rw [show ";".toList = [';'] from rfl] at h2
      simp only [List.mem_cons, List.not_mem_nil, or_false] at h2
      subst h2; decide
  · rw [if_neg (by simpa using h)] at hx
    simp only [List.mem_singleton] at hx
    subst hx; omega

/-- C9 (amended): with detected encoding `"ascii"`, `save` never fails:
minidom serializes through `errors="xmlcharrefreplace"`, so every character
the declared encoding cannot represent is silently written as a decimal
character reference, and the emitted bytes are pure ASCII whatever the
in-memory content holds. -/
theorem C9_ascii_save_escapes (doc : XNode) :
    (saveBytes true doc).all (fun c => c.toNat ≤ 127) = true := by
  rw [List.all_eq_true]
  intro c hc
  rw [saveBytes, encodeChars] at hc
  rcases List.mem_flatMap.mp hc with ⟨x, _, hcx⟩
  simpa using encodeChar_ascii x c hcx

/-- C9 counterexample: an `ascii`-declared document whose content holds the
non-ASCII `é` is saved SUCCESSFULLY, with the character escaped to
`&#233;`, where the claim requires a loud encoding failure. -/
theorem C9_ascii_save_ce :
    saveBytes true (XNode.elem "d" [] none [.text ['é']]) =
      "<?xml version=\"1.0\" encoding=\"ascii\"?><d>&#233;</d>".toList := by decide

/-! ### Path navigation bridges -/

theorem list_decomp {α : Type} :
    ∀ (cs : List α) (i : Nat) (c : α), cs[i]? = some c →
      cs = cs.take i ++ c :: cs.drop (i + 1)
  | [], i, c, h => by simp at h
  | x :: cs, 0, c, h => by
      simp only [List.getElem?_cons_zero, Option.some_inj] at h
      subst h; simp
  | x :: cs, i + 1, c, h => by
      simp only [List.getElem?_cons_succ] at h
      rw [List.take_succ_cons, List.drop_succ_cons, List.cons_append]
      exact congrArg (x :: ·) (list_decomp cs i c h)

theorem modifyAt_of_getAt :
    ∀ (P : Path) (f : List XNode → Option (List XNode)) (doc : XNode)
      (t : String) (a : List (String × String)) (ps : Option Nat) (cs : List XNode),
      getAt doc P = some (.elem t a ps cs) →
      modifyAt P f doc = (f cs).map (fun cs' => setAt P (.elem t a ps cs') doc)
  | [], f, doc, t, a, ps, cs, h => by
      simp only [getAt, Option.some_inj] at h
      subst h
      cases hf : f cs <;> simp [modifyAt, setAt, hf]
  | i :: P, f, doc, t, a, ps, cs, h => by
      cases doc with
      | text d => simp [getAt] at h
      | elem td ad pd csd =>
          simp only [getAt] at h
          cases hc : csd[i]? with
          | none => rw [hc] at h; cases h
          | some c =>
              have h2 : getAt c P = some (.elem t a ps cs) := by
                rw [hc] at h; exact h
              simp only [modifyAt, hc]
              rw [modifyAt_of_getAt P f c t a ps cs h2]
              cases hf : f cs <;> simp [setAt, hc, hf]

theorem getAt_setAt :
    ∀ (P : Path) (m doc n : XNode), getAt doc P = some n →
      getAt (setAt P m doc) P = some m
  | [], m, doc, n, _ => by cases m <;> rfl
  | i :: P, m, doc, n, h => by
      cases doc with
      | text d => simp [getAt] at h
      | elem t a ps cs =>
          simp only [getAt] at h
          cases hc : cs[i]? with
          | none => rw [hc] at h; cases h
          | some c =>
              have h2 : getAt c P = some n := by rw [hc] at h; exact h
              have hlt : i < cs.length := (List.getElem?_eq_some_iff.mp hc).1
              simp only [setAt, hc, getAt, List.getElem?_set_self hlt]
              exact getAt_setAt P m c n h2

theorem setAt_setAt :
    ∀ (P : Path) (m m' doc n : XNode), getAt doc P = some n →
      setAt P m (setAt P m' doc) = setAt P m doc
  | [], m, m', doc, n, _ => rfl
  | i :: P, m, m', doc, n, h => by
      cases doc with
      | text d => simp [getAt] at h
      | elem t a ps cs =>
          simp only [getAt] at h
          cases hc : cs[i]? with
          | none => rw [hc] at h; cases h
          | some c =>
              have h2 : getAt c P = some n := by rw [hc] at h; exact h
              have hlt : i < cs.length := (List.getElem?_eq_some_iff.mp hc).1
              simp only [setAt, hc, List.getElem?_set_self hlt, List.set_set]
              rw [setAt_setAt P m m' c n h2]

theorem except_bind_pure {ε α β : Type} (x : α) (f : α → Except ε β) :
    (pure x : Except ε α) >>= f = f x := rfl

theorem setAt_tag_attrs :
    ∀ (P : Path) (c : XNode) (t : String) (a : List (String × String))
      (ps : Option Nat) (cs cs' : List XNode),
      getAt c P = some (.elem t a ps cs) →
      tagOf (setAt P (.elem t a ps cs') c) = tagOf c ∧
        attrsOf (setAt P (.elem t a ps cs') c) = attrsOf c
  | [], c, t, a, ps, cs, cs', h => by
      simp only [getAt, Option.some_inj] at h
      subst h; exact ⟨rfl, rfl⟩
  | i :: P, c, t, a, ps, cs, cs', h => by
      cases c with
      | text d => simp [getAt] at h
      | elem td ad pd csd =>
          cases hc : csd[i]? <;> simp [setAt, hc, tagOf, attrsOf]

/-- C3 (amended): `add_change_markers` over a start/end pair of siblings
with the start at or before the end (`i ≤ j`) — in particular as produced
by a single-element-fragment `suggest_insertion`, where start = end —
places the change-start marker strictly before the matching change-end
marker in document order (indices `i` and `j + 2` of the rewritten child
list).  For a fragment yielding two or more elements, `insert_after`'s
reversal makes `suggest_insertion` emit the end marker before the start
marker — see the counterexample. -/
theorem C3_marker_order (doc : XNode) (parent : Path) (i j : Nat) (cid : String)
    (t : String) (a : List (String × String)) (ps : Option Nat) (cs : List XNode)
    (hget : getAt doc parent = some (.elem t a ps cs))
    (hij : i ≤ j) (hj : j < cs.length) :
    ∃ cs', add_change_markers doc parent i j cid =
        .ok (setAt parent (.elem t a ps cs') doc) ∧
      cs'[i]? = some (changeStartMarker cid) ∧
      cs'[j + 2]? = some (changeEndMarker cid) ∧ i < j + 2 := by
  have hi : i < cs.length := Nat.lt_of_le_of_lt hij hj
  set cs1 := insertBeforeLoop cs i [changeStartMarker cid] with hcs1
  have hloop1 : cs1 = cs.take i ++ changeStartMarker cid :: cs.drop i := by
    rw [hcs1, insertBeforeLoop_eq [changeStartMarker cid] cs i (Nat.le_of_lt hi)]
    simp [List.append_assoc]
  have hlen1 : cs1.length = cs.length + 1 := by
    rw [hloop1]; simp; omega
  have hstep1 : insertNodesBefore doc parent i [changeStartMarker cid] =
      some (setAt parent (.elem t a ps cs1) doc) := by
    rw [insertNodesBefore, modifyAt_of_getAt parent _ doc t a ps cs hget]
    rw [if_pos hi]
    rfl
  have hget1 : getAt (setAt parent (.elem t a ps cs1) doc) parent =
      some (.elem t a ps cs1) := getAt_setAt parent _ doc _ hget
  set cs2 := insertAfterLoop cs1 (j + 1) [changeEndMarker cid] with hcs2
  have hloop2 : cs2 = cs1.take (j + 2) ++ changeEndMarker cid :: cs1.drop (j + 2) := by
    rw [hcs2, insertAfterLoop_eq [changeEndMarker cid] cs1 (j + 1) (by omega)]
    simp [List.append_assoc]
  have hstep2 : insertNodesAfter (setAt parent (.elem t a ps cs1) doc) parent (j + 1)
      [changeEndMarker cid] =
      some (setAt parent (.elem t a ps cs2) (setAt parent (.elem t a ps cs1) doc)) := by
    rw [insertNodesAfter, modifyAt_of_getAt parent _ _ t a ps cs1 hget1]
    rw [if_pos (by omega)]
    rfl
  refine ⟨cs2, ?_, ?_, ?_, by omega⟩
  · rw [add_change_markers]
    simp only [hstep1, except_bind_pure, if_pos hij, hstep2]
    rw [setAt_setAt parent (.elem t a ps cs2) (.elem t a ps cs1) doc _ hget]
    rfl
  · have h1 : cs1[i]? = some (changeStartMarker cid) := by
      rw [hloop1, List.getElem?_append_right (by simp only [List.length_take]; omega)]
      have h0 : i - (cs.take i).length = 0 := by simp only [List.length_take]; omega
      rw [h0]; simp
    rw [hloop2, List.getElem?_append_left
      (by simp only [List.length_take]; omega)]
    rw [List.getElem?_take_of_lt (by omega)]
    exact h1
  · rw [hloop2, List.getElem?_append_right (by simp only [List.length_take]; omega)]
    have h0 : j + 2 - (cs1.take (j + 2)).length = 0 := by
      simp only [List.length_take]; omega
    rw [h0]; simp

/-- C3 witness: ranged markers around the sibling pair at indices 0 and 1
of `c3doc` come out with the start marker (index 0) before the end marker
(index 3). -/
theorem C3_marker_order_witness :
    ∃ cs', add_change_markers c3doc [] 0 1 "w1" =
        .ok (setAt [] (.elem "r" [] none cs') c3doc) ∧
      cs'[0]? = some (changeStartMarker "w1") ∧
      cs'[3]? = some (changeEndMarker "w1") ∧ 0 < 3 :=
  C3_marker_order c3doc [] 0 1 "w1" "r" [] none
    [.elem "p" [] none [], .elem "q" [] none [], .elem "s" [] none []]
    (by rfl) (by decide) (by decide)

/-- C3 counterexample: `suggest_insertion` of the two-element fragment
`c3frag` succeeds, but in the resulting body the change-end marker comes
BEFORE the change-start marker carrying the same change-id. -/
theorem C3_marker_order_ce :
    (match suggest_insertion c2doc0 [0] 0 c3frag "ct1" "A" "D" with
      | .ok _ => true
      | .error _ => false) = true ∧
    c3body.map tagOf =
      ["text:tracked-changes", "text:p", "text:y", "text:change-end",
        "text:change-start", "text:x"] ∧
    c3body.findIdx (fun n => tagOf n == "text:change-end") <
      c3body.findIdx (fun n => tagOf n == "text:change-start") := by decide

/-! ### Scan and path algebra for the validator invariant (C2) -/

theorem scanL_append
    (loc : String → List (String × String) → List XNode → List String) :
    ∀ (as bs : List XNode), scanL loc (as ++ bs) = scanL loc as ++ scanL loc bs
  | [], bs => by simp [scanL]
  | a :: as, bs => by
      simp [scanL, scanL_append loc as bs]

theorem mem_scanL
    (loc : String → List (String × String) → List XNode → List String)
    (x : String) : ∀ (ns : List XNode),
      x ∈ scanL loc ns ↔ ∃ n ∈ ns, x ∈ scanSelf loc n
  | [] => by simp [scanL]
  | n :: ns => by simp [scanL, mem_scanL loc x ns]

theorem scanL_eq_nil
    (loc : String → List (String × String) → List XNode → List String) :
    ∀ (ns : List XNode),
      scanL loc ns = [] ↔ ∀ n ∈ ns, scanSelf loc n = []
  | [] => by simp [scanL]
  | n :: ns => by simp [scanL, scanL_eq_nil loc ns]

mutual
theorem scanSelf_nil_of
    (loc : String → List (String × String) → List XNode → List String)
    (tg : String) (hloc : ∀ t a cs, t ≠ tg → loc t a cs = []) :
    ∀ n : XNode, subtreeHasTag tg n = false → scanSelf loc n = []
  | .text _, _ => rfl
  | .elem t a ps cs, h => by
      rw [subtreeHasTag] at h
      simp only [scanSelf, Bool.not_eq_false', List.isEmpty_iff,
        List.append_eq_nil] at h
      have ht : t ≠ tg := by
        intro he
        have h1 := h.1
        rw [tagHitLocal, if_pos he] at h1
        cases h1
      have hcs : ∀ c ∈ cs, subtreeHasTag tg c = false := by
        intro c hc
        rw [subtreeHasTag]
        have hn := (scanL_eq_nil (tagHitLocal tg) cs).mp h.2 c hc
        simp [hn]
      have hrest := scanL_nil_of loc tg hloc cs hcs
      simp only [scanSelf, hloc t a cs ht, hrest, List.append_nil]
theorem scanL_nil_of
    (loc : String → List (String × String) → List XNode → List String)
    (tg : String) (hloc : ∀ t a cs, t ≠ tg → loc t a cs = []) :
    ∀ ns : List XNode, (∀ n ∈ ns, subtreeHasTag tg n = false) →
      scanL loc ns = []
  | [], _ => rfl
  | n :: ns, h => by
      rw [scanL, scanSelf_nil_of loc tg hloc n (h n (List.mem_cons_self n ns)),
        scanL_nil_of loc tg hloc ns (fun m hm => h m (List.mem_cons_of_mem n hm))]
      rfl
end

theorem mem_of_getElemOpt {α : Type} {l : List α} {i : Nat} {a : α}
    (h : l[i]? = some a) : a ∈ l := by
  obtain ⟨hlt, he⟩ := List.getElem?_eq_some_iff.mp h
  exact he ▸ l.getElem_mem hlt

theorem subtreeHasTag_self (tg : String) (a : List (String × String))
    (ps : Option Nat) (cs : List XNode) :
    subtreeHasTag tg (.elem tg a ps cs) = true := by
  rw [subtreeHasTag]
  simp [scanSelf, tagHitLocal]

theorem subtreeHasTag_of_getAt :
    ∀ (q : Path) (n m : XNode) (tg : String),
      getAt n q = some m → subtreeHasTag tg m = true → subtreeHasTag tg n = true
  | [], n, m, tg, h, hm => by
      simp only [getAt, Option.some_inj] at h
      rw [h]; exact hm
  | i :: q, n, m, tg, h, hm => by
      cases n with
      | text d => simp [getAt] at h
      | elem t a ps cs =>
          simp only [getAt] at h
          cases hc : cs[i]? with
          | none => rw [hc] at h; cases h
          | some c =>
              have h2 : getAt c q = some m := by rw [hc] at h; exact h
              have hcsub := subtreeHasTag_of_getAt q c m tg h2 hm
              rw [subtreeHasTag] at hcsub ⊢
              simp only [Bool.not_eq_true', List.isEmpty_eq_false] at hcsub ⊢
              intro habs
              simp only [scanSelf, List.append_eq_nil] at habs
              exact hcsub ((scanL_eq_nil (tagHitLocal tg) cs).mp habs.2 c
                (mem_of_getElemOpt hc))

theorem pathLe_true_iff : ∀ (q p : Path), pathLe q p = true ↔ ∃ r, p = q ++ r
  | [], p => by simp [pathLe]
  | a :: as, [] => by simp [pathLe]
  | a :: as, b :: bs => by
      simp only [pathLe, Bool.and_eq_true, beq_iff_eq, pathLe_true_iff as bs,
        List.cons_append, List.cons.injEq]
      constructor
      · rintro ⟨hab, r, hr⟩; exact ⟨r, hab.symm, hr⟩
      · rintro ⟨r, hba, hr⟩; exact ⟨hba.symm, r, hr⟩

theorem getAt_append : ∀ (p q : Path) (n : XNode),
    getAt n (p ++ q) = (getAt n p).bind (fun m => getAt m q)
  | [], q, n => by simp [getAt]
  | i :: p, q, n => by
      cases n with
      | text d => simp [getAt]
      | elem t a ps cs =>
          simp only [List.cons_append, getAt]
          cases hc : cs[i]? with
          | none => simp
          | some c => simp [getAt_append p q c]

theorem set_self_of_getElem {α : Type} :
    ∀ (cs : List α) (i : Nat) (c : α), cs[i]? = some c → cs.set i c = cs
  | [], i, c, h => by simp at h
  | x :: cs, 0, c, h => by
      simp only [List.getElem?_cons_zero, Option.some_inj] at h
      rw [List.set_cons_zero, h]
  | x :: cs, i + 1, c, h => by
      simp only [List.getElem?_cons_succ] at h
      rw [List.set_cons_succ, set_self_of_getElem cs i c h]

theorem setAt_self : ∀ (P : Path) (doc n : XNode),
    getAt doc P = some n → setAt P n doc = doc
  | [], doc, n, h => by
      simp only [getAt, Option.some_inj] at h
      rw [setAt, h]
  | i :: P, doc, n, h => by
      cases doc with
      | text d => simp [getAt] at h
      | elem t a ps cs =>
          simp only [getAt] at h
          cases hc : cs[i]? with
          | none => rw [hc] at h; cases h
          | some c =>
              have h2 : getAt c P = some n := by rw [hc] at h; exact h
              simp only [setAt, hc, setAt_self P c n h2,
                set_self_of_getElem cs i c hc]

theorem scanL_cons
    (loc : String → List (String × String) → List XNode → List String)
    (n : XNode) (ns : List XNode) :
    scanL loc (n :: ns) = scanSelf loc n ++ scanL loc ns := rfl

theorem scanSelf_elem
    (loc : String → List (String × String) → List XNode → List String)
    (t : String) (a : List (String × String)) (ps : Option Nat)
    (cs : List XNode) :
    scanSelf loc (.elem t a ps cs) = loc t a cs ++ scanL loc cs := rfl

theorem regionEntry_congr : ∀ (x y : XNode), tagOf x = tagOf y →
    attrsOf x = attrsOf y → regionEntry x = regionEntry y
  | .text _, .text _, _, _ => rfl
  | .text _, .elem t2 a2 p2 c2, ht, _ => by
      simp only [tagOf] at ht
      simp only [regionEntry]
      rw [if_neg (by rw [← ht]; decide)]
  | .elem t1 a1 p1 c1, .text _, ht, _ => by
      simp only [tagOf] at ht
      simp only [regionEntry]
      rw [if_neg (by rw [ht]; decide)]
  | .elem t1 a1 p1 c1, .elem t2 a2 p2 c2, ht, ha => by
      simp only [tagOf] at ht
      simp only [attrsOf] at ha
      simp only [regionEntry]
      rw [ht, ha]

theorem regionLocal_hloc (t : String) (a : List (String × String))
    (u v : List XNode) (x y : XNode) (ht : tagOf x = tagOf y)
    (ha : attrsOf x = attrsOf y) :
    regionLocal t a (u ++ x :: v) = regionLocal t a (u ++ y :: v) := by
  rw [regionLocal, regionLocal]
  by_cases h : t = trackedChangesTag
  · rw [if_pos h, if_pos h, List.filterMap_append, List.filterMap_append,
      List.filterMap_cons, List.filterMap_cons, regionEntry_congr x y ht ha]
  · rw [if_neg h, if_neg h]

theorem scanSelf_decomp
    (loc : String → List (String × String) → List XNode → List String)
    (hloc : ∀ (t : String) (a : List (String × String)) (u v : List XNode)
      (x y : XNode), tagOf x = tagOf y → attrsOf x = attrsOf y →
      loc t a (u ++ x :: v) = loc t a (u ++ y :: v)) :
    ∀ (P : Path) (n : XNode) (t : String) (a : List (String × String))
      (ps : Option Nat) (cs : List XNode),
      getAt n P = some (.elem t a ps cs) →
      ∃ X Y, scanSelf loc n = X ++ loc t a cs ++ scanL loc cs ++ Y ∧
        ∀ cs', scanSelf loc (setAt P (.elem t a ps cs') n) =
          X ++ loc t a cs' ++ scanL loc cs' ++ Y
  | [], n, t, a, ps, cs, h => by
      simp only [getAt, Option.some_inj] at h
      subst h
      refine ⟨[], [], by simp [scanSelf_elem], fun cs' => ?_⟩
      rw [setAt]
      simp [scanSelf_elem]
  | i :: P, n, t, a, ps, cs, h => by
      cases n with
      | text d => simp [getAt] at h
      | elem tn an pn csn =>
          simp only [getAt] at h
          cases hc : csn[i]? with
          | none => rw [hc] at h; cases h
          | some c =>
              have h2 : getAt c P = some (.elem t a ps cs) := by
                rw [hc] at h; exact h
              have hlt : i < csn.length := (List.getElem?_eq_some_iff.mp hc).1
              have hdec : csn = csn.take i ++ c :: csn.drop (i + 1) :=
                list_decomp csn i c hc
              obtain ⟨X, Y, hX1, hX2⟩ := scanSelf_decomp loc hloc P c t a ps cs h2
              refine ⟨loc tn an csn ++ scanL loc (csn.take i) ++ X,
                Y ++ scanL loc (csn.drop (i + 1)), ?_, ?_⟩
              · have hs : scanL loc csn = scanL loc (csn.take i) ++
                    (scanSelf loc c ++ scanL loc (csn.drop (i + 1))) := by
                  conv_lhs => rw [hdec]
                  rw [scanL_append, scanL_cons]
                rw [scanSelf_elem, hs, hX1]
                simp [List.append_assoc]
              · intro cs'
                have htag := setAt_tag_attrs P c t a ps cs cs' h2
                simp only [setAt, hc]
                rw [scanSelf_elem]
                have hset : csn.set i (setAt P (.elem t a ps cs') c) =
                    csn.take i ++ setAt P (.elem t a ps cs') c ::
                      csn.drop (i + 1) := by
                  rw [List.set_eq_take_append_cons_drop, if_pos hlt]
                rw [hset, scanL_append, scanL_cons, hX2 cs']
                have hlocEq : loc tn an (csn.take i ++
                    setAt P (.elem t a ps cs') c :: csn.drop (i + 1)) =
                    loc tn an csn := by
                  rw [hloc tn an (csn.take i) (csn.drop (i + 1))
                    (setAt P (.elem t a ps cs') c) c htag.1 htag.2, ← hdec]
                rw [hlocEq]
                simp [List.append_assoc]

theorem docScan_decomp
    (loc : String → List (String × String) → List XNode → List String)
    (hloc : ∀ (t : String) (a : List (String × String)) (u v : List XNode)
      (x y : XNode), tagOf x = tagOf y → attrsOf x = attrsOf y →
      loc t a (u ++ x :: v) = loc t a (u ++ y :: v)) :
    ∀ (P : Path) (doc : XNode) (t : String) (a : List (String × String))
      (ps : Option Nat) (cs : List XNode),
      getAt doc P = some (.elem t a ps cs) →
      ∃ X Y,
        docScan loc doc =
          X ++ (if P = [] then [] else loc t a cs) ++ scanL loc cs ++ Y ∧
        ∀ cs', docScan loc (setAt P (.elem t a ps cs') doc) =
          X ++ (if P = [] then [] else loc t a cs') ++ scanL loc cs' ++ Y
  | [], doc, t, a, ps, cs, h => by
      simp only [getAt, Option.some_inj] at h
      subst h
      refine ⟨[], [], by simp [docScan], fun cs' => ?_⟩
      rw [setAt]
      simp [docScan]
  | i :: P, doc, t, a, ps, cs, h => by
      cases doc with
      | text d => simp [getAt] at h
      | elem td ad pd csd =>
          simp only [getAt] at h
          cases hc : csd[i]? with
          | none => rw [hc] at h; cases h
          | some c =>
              have h2 : getAt c P = some (.elem t a ps cs) := by
                rw [hc] at h; exact h
              have hlt : i < csd.length := (List.getElem?_eq_some_iff.mp hc).1
              have hdec : csd = csd.take i ++ c :: csd.drop (i + 1) :=
                list_decomp csd i c hc
              obtain ⟨X, Y, hX1, hX2⟩ := scanSelf_decomp loc hloc P c t a ps cs h2
              refine ⟨scanL loc (csd.take i) ++ X,
                Y ++ scanL loc (csd.drop (i + 1)), ?_, ?_⟩
              · have hs : scanL loc csd = scanL loc (csd.take i) ++
                    (scanSelf loc c ++ scanL loc (csd.drop (i + 1))) := by
                  conv_lhs => rw [hdec]
                  rw [scanL_append, scanL_cons]
                rw [docScan, hs, hX1]
                simp [List.append_assoc]
              · intro cs'
                simp only [setAt, hc]
                rw [docScan]
                have hset : csd.set i (setAt P (.elem t a ps cs') c) =
                    csd.take i ++ setAt P (.elem t a ps cs') c ::
                      csd.drop (i + 1) := by
                  rw [List.set_eq_take_append_cons_drop, if_pos hlt]
                rw [hset, scanL_append, scanL_cons, hX2 cs']
                simp [List.append_assoc]

theorem getAt_nil : ∀ n : XNode, getAt n [] = some n
  | .text _ => rfl
  | .elem _ _ _ _ => rfl

theorem modifyAt_ok :
    ∀ (P : Path) (f : List XNode → Option (List XNode)) (doc doc' : XNode),
      modifyAt P f doc = some doc' →
      ∃ t a ps cs cs', getAt doc P = some (.elem t a ps cs) ∧ f cs = some cs' ∧
        doc' = setAt P (.elem t a ps cs') doc
  | [], f, doc, doc', h => by
      cases doc with
      | text d => simp [modifyAt] at h
      | elem t a ps cs =>
          simp only [modifyAt] at h
          cases hf : f cs with
          | none => rw [hf] at h; cases h
          | some cs' =>
              rw [hf] at h
              simp only [Option.map_some', Option.some_inj] at h
              exact ⟨t, a, ps, cs, cs', rfl, hf, by rw [← h]; rfl⟩
  | i :: P, f, doc, doc', h => by
      cases doc with
      | text d => simp [modifyAt] at h
      | elem t a ps cs =>
          simp only [modifyAt] at h
          cases hc : cs[i]? with
          | none => rw [hc] at h; cases h
          | some c =>
              rw [hc] at h
              replace h : (modifyAt P f c).map
                  (fun c2 => XNode.elem t a ps (cs.set i c2)) = some doc' := h
              cases hm : modifyAt P f c with
              | none => rw [hm] at h; cases h
              | some c2 =>
                  rw [hm] at h
                  simp only [Option.map_some', Option.some_inj] at h
                  obtain ⟨t', a', ps', cs0, cs0', hget, hf, hc2⟩ :=
                    modifyAt_ok P f c c2 hm
                  refine ⟨t', a', ps', cs0, cs0', ?_, hf, ?_⟩
                  · simp only [getAt, hc]; exact hget
                  · rw [← h, hc2]
                    simp only [setAt, hc]

theorem getElem?_middle_right {α : Type} (u ms v : List α) (i : Nat)
    (h : u.length ≤ i) :
    (u ++ ms ++ v)[i + ms.length]? = (u ++ v)[i]? := by
  rw [List.getElem?_append_right
      (by simp only [List.length_append]; omega : (u ++ ms).length ≤ i + ms.length),
    List.getElem?_append_right h]
  congr 1
  simp only [List.length_append]
  omega

theorem getElem?_middle_left {α : Type} (u ms v : List α) (i : Nat)
    (h : i < u.length) :
    (u ++ ms ++ v)[i]? = (u ++ v)[i]? := by
  rw [List.getElem?_append_left
      (by simp only [List.length_append]; omega : i < (u ++ ms).length),
    List.getElem?_append_left h, List.getElem?_append_left h]

theorem transport_insert :
    ∀ (P : Path) (doc : XNode) (t : String) (a : List (String × String))
      (ps : Option Nat) (u v ms : List XNode) (rp : Path) (ri : Nat) (w : XNode),
      getAt doc P = some (.elem t a ps (u ++ v)) →
      getAt doc (rp ++ [ri]) = some w →
      (∃ w', getAt (setAt P (.elem t a ps (u ++ ms ++ v)) doc)
            ((shiftRef P u.length ms.length rp ri).1 ++
              [(shiftRef P u.length ms.length rp ri).2]) = some w' ∧
          tagOf w' = tagOf w ∧ attrsOf w' = attrsOf w) ∧
      (pathLe (rp ++ [ri]) P = false →
        getAt (setAt P (.elem t a ps (u ++ ms ++ v)) doc)
          ((shiftRef P u.length ms.length rp ri).1 ++
            [(shiftRef P u.length ms.length rp ri).2]) = some w)
  | [], doc, t, a, ps, u, v, ms, [], ri, w, h, href => by
      simp only [getAt, Option.some_inj] at h
      subst h
      simp only [getAt, List.nil_append] at href
      have hw : (u ++ v)[ri]? = some w := by
        cases hri : (u ++ v)[ri]? with
        | none => rw [hri] at href; cases href
        | some x =>
            have href' : some x = some w := by rw [hri] at href; exact href
            exact href'
      rw [setAt]
      simp only [shiftRef, List.nil_append]
      have hval : getAt (XNode.elem t a ps (u ++ ms ++ v))
          [if u.length ≤ ri then ri + ms.length else ri] = some w := by
        simp only [getAt]
        by_cases hk : u.length ≤ ri
        · rw [if_pos hk, getElem?_middle_right u ms v ri hk, hw]
        · rw [if_neg hk, getElem?_middle_left u ms v ri (by omega), hw]
      exact ⟨⟨w, hval, rfl, rfl⟩, fun _ => hval⟩
  | [], doc, t, a, ps, u, v, ms, j :: q, ri, w, h, href => by
      simp only [getAt, Option.some_inj] at h
      subst h
      simp only [List.cons_append, getAt] at href
      cases hj : (u ++ v)[j]? with
      | none => rw [hj] at href; cases href
      | some cj =>
          have href2 : getAt cj (q ++ [ri]) = some w := by
            rw [hj] at href; exact href
          rw [setAt]
          simp only [shiftRef, List.cons_append, getAt]
          have hval : getAt (XNode.elem t a ps (u ++ ms ++ v))
              ((if u.length ≤ j then j + ms.length else j) :: (q ++ [ri])) =
                some w := by
            simp only [getAt]
            by_cases hk : u.length ≤ j
            · rw [if_pos hk, getElem?_middle_right u ms v j hk, hj]
              exact href2
            · rw [if_neg hk, getElem?_middle_left u ms v j (by omega), hj]
              exact href2
          exact ⟨⟨w, hval, rfl, rfl⟩, fun _ => hval⟩
  | p :: P', doc, t, a, ps, u, v, ms, [], ri, w, h, href => by
      cases doc with
      | text d => simp [getAt] at h
      | elem td ad pd csd =>
          simp only [getAt] at h
          cases hc : csd[p]? with
          | none => rw [hc] at h; cases h
          | some cp =>
              have h2 : getAt cp P' = some (.elem t a ps (u ++ v)) := by
                rw [hc] at h; exact h
              have hlt : p < csd.length := (List.getElem?_eq_some_iff.mp hc).1
              simp only [getAt, List.nil_append] at href
              cases hri : csd[ri]? with
              | none => rw [hri] at href; cases href
              | some x =>
                  have hx : x = w := by
                    rw [hri] at href
                    simpa using href
                  rw [hx] at hri
                  simp only [shiftRef, setAt, hc, List.nil_append, getAt]
                  by_cases hrp : ri = p
                  · subst hrp
                    have hwcp : w = cp := by
                      rw [hri] at hc; simpa using hc
                    subst hwcp
                    rw [List.getElem?_set_self hlt]
                    have htags := setAt_tag_attrs P' w t a ps (u ++ v)
                      (u ++ ms ++ v) h2
                    refine ⟨⟨setAt P' (.elem t a ps (u ++ ms ++ v)) w, rfl,
                      htags.1, htags.2⟩, ?_⟩
                    intro hfalse
                    simp [pathLe] at hfalse
                  · rw [List.getElem?_set_ne (fun he => hrp he.symm), hri]
                    exact ⟨⟨w, rfl, rfl, rfl⟩, fun _ => rfl⟩
  | p :: P', doc, t, a, ps, u, v, ms, j :: q, ri, w, h, href => by
      cases doc with
      | text d => simp [getAt] at h
      | elem td ad pd csd =>
          simp only [getAt] at h
          cases hc : csd[p]? with
          | none => rw [hc] at h; cases h
          | some cp =>
              have h2 : getAt cp P' = some (.elem t a ps (u ++ v)) := by
                rw [hc] at h; exact h
              have hlt : p < csd.length := (List.getElem?_eq_some_iff.mp hc).1
              simp only [List.cons_append, getAt] at href
              cases hj : csd[j]? with
              | none => rw [hj] at href; cases href
              | some cj =>
                  have href2 : getAt cj (q ++ [ri]) = some w := by
                    rw [hj] at href; exact href
                  by_cases hjp : j = p
                  · subst hjp
                    have hcj : cj = cp := by
                      rw [hj] at hc; simpa using hc
                    subst hcj
                    obtain ⟨⟨w', hw', htagw, hattrw⟩, hval⟩ :=
                      transport_insert P' cj t a ps u v ms q ri w h2 href2
                    simp only [shiftRef, if_pos rfl, setAt, hc, List.cons_append,
                      getAt, List.getElem?_set_self hlt]
                    refine ⟨⟨w', hw', htagw, hattrw⟩, ?_⟩
                    intro hfalse
                    simp only [List.cons_append, pathLe, beq_self_eq_true,
                      Bool.true_and] at hfalse
                    exact hval hfalse
                  · simp only [shiftRef, if_neg hjp, setAt, hc, List.cons_append,
                      getAt, List.getElem?_set_ne (fun he => hjp he.symm), hj]
                    exact ⟨⟨w, href2, rfl, rfl⟩, fun _ => href2⟩

theorem transport_append :
    ∀ (P : Path) (doc : XNode) (t : String) (a : List (String × String))
      (ps : Option Nat) (cs ms : List XNode) (q : Path) (w : XNode),
      getAt doc P = some (.elem t a ps cs) →
      getAt doc q = some w →
      (∃ w', getAt (setAt P (.elem t a ps (cs ++ ms)) doc) q = some w' ∧
          tagOf w' = tagOf w ∧ attrsOf w' = attrsOf w) ∧
      (pathLe q P = false →
        getAt (setAt P (.elem t a ps (cs ++ ms)) doc) q = some w)
  | [], doc, t, a, ps, cs, ms, [], w, h, href => by
      simp only [getAt, Option.some_inj] at h href
      subst h
      subst href
      rw [setAt]
      refine ⟨⟨.elem t a ps (cs ++ ms), rfl, rfl, rfl⟩, ?_⟩
      intro hfalse
      simp [pathLe] at hfalse
  | [], doc, t, a, ps, cs, ms, j :: q', w, h, href => by
      simp only [getAt, Option.some_inj] at h
      subst h
      simp only [getAt] at href
      cases hj : cs[j]? with
      | none => rw [hj] at href; cases href
      | some cj =>
          have href2 : getAt cj q' = some w := by rw [hj] at href; exact href
          have hjl : j < cs.length := (List.getElem?_eq_some_iff.mp hj).1
          rw [setAt]
          have hval : getAt (XNode.elem t a ps (cs ++ ms)) (j :: q') = some w := by
            simp only [getAt, List.getElem?_append_left hjl, hj]
            exact href2
          exact ⟨⟨w, hval, rfl, rfl⟩, fun _ => hval⟩
  | i :: P', doc, t, a, ps, cs, ms, [], w, h, href => by
      cases doc with
      | text d => simp [getAt] at h
      | elem td ad pd csd =>
          simp only [getAt] at h
          cases hc : csd[i]? with
          | none => rw [hc] at h; cases h
          | some c =>
              have h2 : getAt c P' = some (.elem t a ps cs) := by
                rw [hc] at h; exact h
              simp only [getAt, Option.some_inj] at href
              subst href
              simp only [setAt, hc]
              refine ⟨⟨.elem td ad pd
                (csd.set i (setAt P' (.elem t a ps (cs ++ ms)) c)), rfl,
                rfl, rfl⟩, ?_⟩
              intro hfalse
              simp [pathLe] at hfalse
  | i :: P', doc, t, a, ps, cs, ms, j :: q', w, h, href => by
      cases doc with
      | text d => simp [getAt] at h
      | elem td ad pd csd =>
          simp only [getAt] at h
          cases hc : csd[i]? with
          | none => rw [hc] at h; cases h
          | some c =>
              have h2 : getAt c P' = some (.elem t a ps cs) := by
                rw [hc] at h; exact h
              have hlt : i < csd.length := (List.getElem?_eq_some_iff.mp hc).1
              simp only [getAt] at href
              cases hj : csd[j]? with
              | none => rw [hj] at href; cases href
              | some cj =>
                  have href2 : getAt cj q' = some w := by
                    rw [hj] at href; exact href
                  by_cases hji : j = i
                  · subst hji
                    have hcj : cj = c := by
                      rw [hj] at hc; simpa using hc
                    subst hcj
                    obtain ⟨⟨w', hw', htagw, hattrw⟩, hval⟩ :=
                      transport_append P' cj t a ps cs ms q' w h2 href2
                    simp only [setAt, hc, getAt, List.getElem?_set_self hlt]
                    refine ⟨⟨w', hw', htagw, hattrw⟩, ?_⟩
                    intro hfalse
                    simp only [pathLe, beq_self_eq_true, Bool.true_and] at hfalse
                    exact hval hfalse
                  · simp only [setAt, hc, getAt,
                      List.getElem?_set_ne (fun he => hji he.symm), hj]
                    exact ⟨⟨w, href2, rfl, rfl⟩, fun _ => href2⟩

theorem shiftRef_nil_fst : ∀ (P : Path) (k m ri : Nat),
    (shiftRef P k m [] ri).1 = []
  | [], _, _, _ => rfl
  | _ :: _, _, _, _ => rfl

theorem shiftRef_parent :
    ∀ (P : Path) (k m : Nat) (pp : Path) (pidx ri : Nat),
      (shiftRef P k m (pp ++ [pidx]) ri).1 =
        (shiftRef P k m pp pidx).1 ++ [(shiftRef P k m pp pidx).2]
  | [], k, m, [], pidx, ri => by simp [shiftRef]
  | [], k, m, j :: pp', pidx, ri => by simp [shiftRef]
  | p :: ps, k, m, [], pidx, ri => by
      simp only [List.nil_append, shiftRef]
      by_cases hp : pidx = p
      · rw [if_pos hp]
        simp [shiftRef_nil_fst]
      · rw [if_neg hp]
  | p :: ps, k, m, j :: pp', pidx, ri => by
      simp only [List.cons_append, shiftRef]
      by_cases hj : j = p
      · rw [if_pos hj, if_pos hj]
        simp [shiftRef_parent ps k m pp' pidx ri]
      · rw [if_neg hj, if_neg hj]
        simp

mutual
theorem findTagged_sound : ∀ (tg : String) (n : XNode) (p : Path),
    findTagged tg n = some p →
    ∃ a ps cs, getAt n p = some (.elem tg a ps cs)
  | tg, .text _, p, h => by simp [findTagged] at h
  | tg, .elem t a ps cs, p, h => by
      rw [findTagged] at h
      by_cases ht : t = tg
      · rw [if_pos ht] at h
        subst ht
        simp only [Option.some_inj] at h
        subst h
        exact ⟨a, ps, cs, rfl⟩
      · rw [if_neg ht] at h
        obtain ⟨j, q, c, hp, hc, hsub⟩ := findTaggedL_sound tg cs 0 p h
        subst hp
        obtain ⟨a2, ps2, cs2, hget⟩ := hsub
        refine ⟨a2, ps2, cs2, ?_⟩
        have hj : cs[0 + j]? = some c := by simpa using hc
        simp only [getAt, hj]
        exact hget
theorem findTaggedL_sound : ∀ (tg : String) (ns : List XNode) (i : Nat)
    (p : Path), findTaggedL tg ns i = some p →
    ∃ j q c, p = (i + j) :: q ∧ ns[j]? = some c ∧
      ∃ a ps cs, getAt c q = some (.elem tg a ps cs)
  | tg, [], i, p, h => by simp [findTaggedL] at h
  | tg, n :: ns, i, p, h => by
      rw [findTaggedL] at h
      cases hf : findTagged tg n with
      | some q =>
          rw [hf] at h
          replace h : some (i :: q) = some p := h
          simp only [Option.some_inj] at h
          subst h
          exact ⟨0, q, n, by simp, by simp, findTagged_sound tg n q hf⟩
      | none =>
          rw [hf] at h
          replace h : findTaggedL tg ns (i + 1) = some p := h
          obtain ⟨j, q, c, hp, hc, hsub⟩ := findTaggedL_sound tg ns (i + 1) p h
          refine ⟨j + 1, q, c, ?_, by simpa using hc, hsub⟩
          rw [hp]
          congr 1
          omega
end

theorem lastSeqDecls_lt : ∀ (ns : List XNode) (i j : Nat),
    lastSeqDecls ns i = some j → j < i + ns.length
  | [], i, j, h => by simp [lastSeqDecls] at h
  | n :: ns, i, j, h => by
      cases n with
      | text d =>
          replace h : (match lastSeqDecls ns (i + 1) with
            | some j2 => some j2
            | none => none) = some j := h
          cases hr : lastSeqDecls ns (i + 1) with
          | some j2 =>
              rw [hr] at h
              replace h : some j2 = some j := h
              simp only [Option.some_inj] at h
              have := lastSeqDecls_lt ns (i + 1) j2 hr
              simp only [List.length_cons]
              omega
          | none =>
              rw [hr] at h
              replace h : (none : Option Nat) = some j := h
              cases h
      | elem t a ps cs =>
          replace h : (match lastSeqDecls ns (i + 1) with
            | some j2 => some j2
            | none =>
                if t = "text:sequence-decls" then some i else none) = some j := h
          cases hr : lastSeqDecls ns (i + 1) with
          | some j2 =>
              rw [hr] at h
              replace h : some j2 = some j := h
              simp only [Option.some_inj] at h
              have := lastSeqDecls_lt ns (i + 1) j2 hr
              simp only [List.length_cons]
              omega
          | none =>
              rw [hr] at h
              replace h : (if t = "text:sequence-decls" then some i
                else none) = some j := h
              by_cases ht : t = "text:sequence-decls"
              · rw [if_pos ht] at h
                simp only [Option.some_inj] at h
                simp only [List.length_cons]
                omega
              · rw [if_neg ht] at h
                cases h

theorem firstElemIdx_lt : ∀ (ns : List XNode) (i k : Nat),
    firstElemIdx ns i = some k → k < i + ns.length
  | [], i, k, h => by simp [firstElemIdx] at h
  | n :: ns, i, k, h => by
      rw [firstElemIdx] at h
      by_cases he : isElem n = true
      · rw [if_pos he] at h
        simp only [Option.some_inj] at h
        simp only [List.length_cons]
        omega
      · rw [if_neg he] at h
        have := firstElemIdx_lt ns (i + 1) k h
        simp only [List.length_cons]
        omega

theorem markerLocal_no_attr (tg t : String) (a : List (String × String))
    (cs : List XNode) (h : lookupA a "text:change-id" = none) :
    markerLocal tg t a cs = [] := by
  simp [markerLocal, h]

theorem markerLocal_children (tg t : String) (a : List (String × String))
    (cs1 cs2 : List XNode) : markerLocal tg t a cs1 = markerLocal tg t a cs2 :=
  rfl

theorem markerLocal_hloc (tg : String) : ∀ (t : String)
    (a : List (String × String)) (u v : List XNode) (x y : XNode),
    tagOf x = tagOf y → attrsOf x = attrsOf y →
    markerLocal tg t a (u ++ x :: v) = markerLocal tg t a (u ++ y :: v) :=
  fun _ _ _ _ _ _ _ _ => rfl

theorem regionLocal_ne (t : String) (a : List (String × String))
    (cs : List XNode) (h : t ≠ trackedChangesTag) : regionLocal t a cs = [] := by
  rw [regionLocal, if_neg h]

theorem ensure_facts (doc : XNode) (er : EnsureResult)
    (hroot : tagOf doc ≠ trackedChangesTag)
    (h : ensure_tracked_changes doc = .ok er) :
    tagOf er.doc = tagOf doc ∧
    er.tpath ≠ [] ∧
    (∃ a2 ps2 cs2,
      getAt er.doc er.tpath = some (.elem trackedChangesTag a2 ps2 cs2)) ∧
    (∀ tg, taggedIds tg er.doc = taggedIds tg doc) ∧
    docRegions er.doc = docRegions doc ∧
    (er.created = none → er.doc = doc) ∧
    (∀ cp ck, er.created = some (cp, ck) →
      ∃ a3 ps3 cs3, getAt doc cp = some (.elem "office:text" a3 ps3 cs3) ∧
        ck ≤ cs3.length ∧
        er.doc = setAt cp (.elem "office:text" a3 ps3
          (cs3.take ck ++ .elem trackedChangesTag [] none [] ::
            cs3.drop ck)) doc) := by
  rw [ensure_tracked_changes] at h
  cases hf : findTagged trackedChangesTag doc with
  | some p =>
      rw [hf] at h
      replace h : Except.ok (⟨doc, p, none⟩ : EnsureResult) = .ok er := h
      simp only [Except.ok.injEq] at h
      subst h
      obtain ⟨a2, ps2, cs2, hget⟩ := findTagged_sound trackedChangesTag doc p hf
      refine ⟨rfl, ?_, ⟨a2, ps2, cs2, hget⟩, fun tg => rfl, rfl,
        fun _ => rfl, fun cp ck hcr => by cases hcr⟩
      intro hp
      subst hp
      simp only [getAt, Option.some_inj] at hget
      rw [hget] at hroot
      exact hroot rfl
  | none =>
      rw [hf] at h
      cases ho : findTagged "office:text" doc with
      | none =>
          rw [ho] at h
          cases h
      | some otPath =>
          rw [ho] at h
          obtain ⟨a3, ps3, cs3, hgo⟩ :=
            findTagged_sound "office:text" doc otPath ho
          replace h : (match getAt doc otPath with
            | some (.elem _ _ _ cs) =>
                let tracked : XNode := .elem trackedChangesTag [] none []
                let insIdx : Nat :=
                  match lastSeqDecls cs 0 with
                  | some j =>
                      if j + 1 < cs.length then j + 1
                      else
                        match firstElemIdx cs 0 with
                        | some k => k
                        | none => cs.length
                  | none =>
                      match firstElemIdx cs 0 with
                      | some k => k
                      | none => cs.length
                match modifyAt otPath
                    (fun cs0 => some (listInsertAt cs0 insIdx [tracked])) doc with
                | some d => Except.ok (⟨d, otPath ++ [insIdx],
                    some (otPath, insIdx)⟩ : EnsureResult)
                | none => Except.error EdErr.missingOfficeText
            | _ => Except.error EdErr.missingOfficeText) = .ok er := h
          rw [hgo] at h
          obtain ⟨I, hI⟩ : ∃ I, (match lastSeqDecls cs3 0 with
              | some j =>
                  if j + 1 < cs3.length then j + 1
                  else match firstElemIdx cs3 0 with
                    | some k => k
                    | none => cs3.length
              | none => match firstElemIdx cs3 0 with
                  | some k => k
                  | none => cs3.length) = I := ⟨_, rfl⟩
          replace h : (match modifyAt otPath
              (fun cs0 => some (listInsertAt cs0 I
                [.elem trackedChangesTag [] none []])) doc with
            | some d =>
                Except.ok (⟨d, otPath ++ [I], some (otPath, I)⟩ : EnsureResult)
            | none => Except.error EdErr.missingOfficeText) = .ok er := by
            rw [← hI]
            exact h
          rw [modifyAt_of_getAt otPath _ doc "office:text" a3 ps3 cs3 hgo] at h
          simp only [Option.map_some'] at h
          replace h : Except.ok
              (⟨setAt otPath (.elem "office:text" a3 ps3
                  (listInsertAt cs3 I [.elem trackedChangesTag [] none []])) doc,
                otPath ++ [I], some (otPath, I)⟩ : EnsureResult) = .ok er := h
          simp only [Except.ok.injEq] at h
          subst h
          have hIle : I ≤ cs3.length := by
            rw [← hI]
            cases hl : lastSeqDecls cs3 0 with
            | some j =>
                have hjb := lastSeqDecls_lt cs3 0 j hl
                show (if j + 1 < cs3.length then j + 1
                  else match firstElemIdx cs3 0 with
                    | some k => k
                    | none => cs3.length) ≤ cs3.length
                by_cases hj1 : j + 1 < cs3.length
                · rw [if_pos hj1]; omega
                · rw [if_neg hj1]
                  cases hk : firstElemIdx cs3 0 with
                  | some k =>
                      have := firstElemIdx_lt cs3 0 k hk
                      show k ≤ cs3.length
                      omega
                  | none =>
                      show cs3.length ≤ cs3.length
                      exact Nat.le_refl _
            | none =>
                cases hk : firstElemIdx cs3 0 with
                | some k =>
                    have := firstElemIdx_lt cs3 0 k hk
                    show k ≤ cs3.length
                    omega
                | none =>
                    show cs3.length ≤ cs3.length
                    exact Nat.le_refl _
          have htake : (cs3.take I).length = I := by
            rw [List.length_take]
            omega
          have hins : listInsertAt cs3 I [.elem trackedChangesTag [] none []] =
              cs3.take I ++ .elem trackedChangesTag [] none [] ::
                cs3.drop I := by
            rw [listInsertAt]
            simp
          have htags := setAt_tag_attrs otPath doc "office:text" a3 ps3 cs3
            (listInsertAt cs3 I [.elem trackedChangesTag [] none []]) hgo
          have hgset := getAt_setAt otPath
            (.elem "office:text" a3 ps3
              (listInsertAt cs3 I [.elem trackedChangesTag [] none []]))
            doc _ hgo
          have hchild : (listInsertAt cs3 I
              [.elem trackedChangesTag [] none []])[I]? =
              some (.elem trackedChangesTag [] none []) := by
            rw [hins, List.getElem?_append_right htake.le, htake, Nat.sub_self,
              List.getElem?_cons_zero]
          refine ⟨htags.1, by simp, ?_, ?_, ?_, ?_, ?_⟩
          · refine ⟨[], none, [], ?_⟩
            rw [getAt_append, hgset]
            show getAt (XNode.elem "office:text" a3 ps3
                (listInsertAt cs3 I [.elem trackedChangesTag [] none []]))
                [I] = some (.elem trackedChangesTag [] none [])
            simp only [getAt, hchild]
          · intro tg
            obtain ⟨X, Y, h1, h2⟩ := docScan_decomp (markerLocal tg)
              (markerLocal_hloc tg) otPath doc "office:text" a3 ps3 cs3 hgo
            rw [taggedIds, taggedIds, h1,
              h2 (listInsertAt cs3 I [.elem trackedChangesTag [] none []])]
            rw [hins, scanL_append, scanL_cons]
            have hsc : scanSelf (markerLocal tg)
                (.elem trackedChangesTag [] none []) = [] := by
              rw [scanSelf_elem,
                markerLocal_no_attr tg trackedChangesTag [] [] rfl]
              rfl
            rw [hsc]
            conv_rhs => rw [show cs3 = cs3.take I ++ cs3.drop I from
              (List.take_append_drop I cs3).symm]
            rw [scanL_append]
            rw [markerLocal_children tg "office:text" a3
              (cs3.take I ++ .elem trackedChangesTag [] none [] :: cs3.drop I)
              cs3]
            simp
          · obtain ⟨X, Y, h1, h2⟩ := docScan_decomp regionLocal
              regionLocal_hloc otPath doc "office:text" a3 ps3 cs3 hgo
            rw [docRegions, docRegions, h1,
              h2 (listInsertAt cs3 I [.elem trackedChangesTag [] none []])]
            rw [hins, scanL_append, scanL_cons]
            have hsc : scanSelf regionLocal
                (.elem trackedChangesTag [] none []) = [] := by decide
            rw [hsc]
            conv_rhs => rw [show cs3 = cs3.take I ++ cs3.drop I from
              (List.take_append_drop I cs3).symm]
            rw [scanL_append]
            by_cases hP : otPath = []
            · simp [hP]
            · rw [if_neg hP, if_neg hP,
                regionLocal_ne "office:text" a3 _ (by decide),
                regionLocal_ne "office:text" a3 _ (by decide)]
              simp
          · intro hx
            cases hx
          · intro cp ck hcr
            simp only [Option.some_inj, Prod.mk.injEq] at hcr
            obtain ⟨hcp, hck⟩ := hcr
            subst hcp
            subst hck
            exact ⟨a3, ps3, cs3, hgo, hIle, by rw [hins]⟩

theorem listInsertAt_length (cs ns : List XNode) :
    listInsertAt cs cs.length ns = cs ++ ns := by
  rw [listInsertAt, List.take_length, List.drop_length, List.append_nil]

theorem marker_elem_ids (tg mtag cid x : String)
    (h : x ∈ scanSelf (markerLocal tg)
      (.elem mtag [("text:change-id", cid)] none [])) :
    x = cid ∧ cid ≠ "" := by
  rw [scanSelf_elem] at h
  simp only [scanL, List.append_nil] at h
  rw [markerLocal] at h
  by_cases h1 : mtag = tg
  · rw [if_pos h1] at h
    have hl : lookupA [("text:change-id", cid)] "text:change-id" =
        some cid := by simp [lookupA]
    rw [hl] at h
    replace h : x ∈ (if cid = "" then [] else [cid]) := h
    by_cases h2 : cid = ""
    · rw [if_pos h2] at h
      cases h
    · rw [if_neg h2] at h
      simp only [List.mem_singleton] at h
      exact ⟨h, h2⟩
  · rw [if_neg h1] at h
    cases h

theorem region_marker_sub (tg ct author date cid : String) (fr : List XNode)
    (x : String)
    (h : x ∈ scanSelf (markerLocal tg) (regionNode ct author date cid fr)) :
    x ∈ scanL (markerLocal tg) fr := by
  simp only [regionNode, scanSelf_elem, scanL_cons, scanL] at h
  rw [markerLocal_no_attr tg changedRegionTag [("text:id", cid)] _
        (by simp [lookupA]),
      markerLocal_no_attr tg ("text:" ++ ct) [] _ rfl,
      markerLocal_no_attr tg "office:change-info" [] _ rfl,
      markerLocal_no_attr tg "dc:creator" [] _ rfl,
      markerLocal_no_attr tg "dc:date" [] _ rfl] at h
  have htx : ∀ d : List Char, scanSelf (markerLocal tg) (.text d) = [] :=
    fun _ => rfl
  simpa [htx] using h

theorem regionNode_entry (ct author date cid : String) (fr : List XNode)
    (h : cid ≠ "") :
    regionEntry (regionNode ct author date cid fr) = some cid := by
  simp [regionNode, regionEntry, lookupA, h]

theorem record_facts (doc : XNode) (ct author date : String) (fr : List XNode)
    (cid : String) (rr : RecordResult)
    (hroot : tagOf doc ≠ trackedChangesTag)
    (h : add_change_record doc ct author date (some fr) cid = .ok rr) :
    tagOf rr.doc = tagOf doc ∧
    (∀ tg x, x ∈ taggedIds tg rr.doc →
        x ∈ taggedIds tg doc ∨ x ∈ scanL (markerLocal tg) fr) ∧
    (∀ x, x ∈ docRegions doc → x ∈ docRegions rr.doc) ∧
    (cid ≠ "" → cid ∈ docRegions rr.doc) ∧
    ∃ er a2 ps2 cs2, ensure_tracked_changes doc = .ok er ∧
      rr.created = er.created ∧
      getAt er.doc er.tpath = some (.elem trackedChangesTag a2 ps2 cs2) ∧
      rr.doc = setAt er.tpath (.elem trackedChangesTag a2 ps2
        (cs2 ++ [regionNode ct author date cid fr])) er.doc := by
  rw [add_change_record] at h
  by_cases hct : validChangeKinds.contains ct = true
  · rw [if_pos hct] at h
    cases hens : ensure_tracked_changes doc with
    | error e =>
        rw [hens] at h
        replace h : (Except.error e : Except EdErr RecordResult) = .ok rr := h
        cases h
    | ok er =>
        rw [hens] at h
        replace h : (parse_fragment (some fr) >>= fun payloadNodes =>
          match appendNodes er.doc er.tpath
              [regionNode ct author date cid payloadNodes] with
          | some d => pure (⟨d, er.created⟩ : RecordResult)
          | none => Except.error .invalidRef) = .ok rr := h
        rw [parse_fragment] at h
        cases hhe : hasElemNode fr with
        | true =>
          rw [hhe] at h
          replace h : (match appendNodes er.doc er.tpath
              [regionNode ct author date cid fr] with
            | some d => (Except.ok ⟨d, er.created⟩ : Except EdErr RecordResult)
            | none => Except.error EdErr.invalidRef) = .ok rr := h
          obtain ⟨htag0, htpne, ⟨a2, ps2, cs2, htrk⟩, hmks, hrgs, -, -⟩ :=
            ensure_facts doc er hroot hens
          rw [appendNodes, modifyAt_of_getAt er.tpath _ er.doc
            trackedChangesTag a2 ps2 cs2 htrk] at h
          simp only [Option.map_some'] at h
          replace h : Except.ok
              (⟨setAt er.tpath (.elem trackedChangesTag a2 ps2
                  (listInsertAt cs2 cs2.length
                    [regionNode ct author date cid fr])) er.doc,
                er.created⟩ : RecordResult) = .ok rr := h
          simp only [Except.ok.injEq] at h
          subst h
          simp only [listInsertAt_length]
          have htags := setAt_tag_attrs er.tpath er.doc trackedChangesTag a2
            ps2 cs2 (cs2 ++ [regionNode ct author date cid fr]) htrk
          refine ⟨htags.1.trans htag0, ?_, ?_, ?_, ?_⟩
          · intro tg x hx
            obtain ⟨X, Y, hm1, hm2⟩ := docScan_decomp (markerLocal tg)
              (markerLocal_hloc tg) er.tpath er.doc trackedChangesTag a2 ps2
              cs2 htrk
            rw [taggedIds,
              hm2 (cs2 ++ [regionNode ct author date cid fr])] at hx
            rw [scanL_append, scanL_cons,
              markerLocal_children tg trackedChangesTag a2
                (cs2 ++ [regionNode ct author date cid fr]) cs2] at hx
            simp only [scanL, List.append_nil, List.mem_append] at hx
            by_cases hr : x ∈ scanSelf (markerLocal tg)
              (regionNode ct author date cid fr)
            · exact Or.inr (region_marker_sub tg ct author date cid fr x hr)
            · left
              rw [← hmks tg, taggedIds, hm1]
              simp only [List.mem_append]
              tauto
          · intro x hx
            obtain ⟨X, Y, hr1, hr2⟩ := docScan_decomp regionLocal
              regionLocal_hloc er.tpath er.doc trackedChangesTag a2 ps2 cs2 htrk
            rw [← hrgs, docRegions, hr1, if_neg htpne] at hx
            rw [docRegions, hr2 (cs2 ++ [regionNode ct author date cid fr]),
              if_neg htpne, scanL_append, scanL_cons]
            rw [regionLocal, if_pos rfl] at hx ⊢
            rw [List.filterMap_append]
            simp only [scanL, List.append_nil, List.mem_append] at hx ⊢
            tauto
          · intro hne
            obtain ⟨X, Y, hr1, hr2⟩ := docScan_decomp regionLocal
              regionLocal_hloc er.tpath er.doc trackedChangesTag a2 ps2 cs2 htrk
            rw [docRegions, hr2 (cs2 ++ [regionNode ct author date cid fr]),
              if_neg htpne]
            rw [regionLocal, if_pos rfl, List.filterMap_append]
            have he : List.filterMap regionEntry
                [regionNode ct author date cid fr] = [cid] := by
              rw [List.filterMap_cons, regionNode_entry ct author date cid fr hne]
              rfl
            rw [he]
            simp only [List.mem_append, List.mem_singleton]
            tauto
          · exact ⟨er, a2, ps2, cs2, rfl, rfl, htrk, rfl⟩
        | false =>
          rw [hhe] at h
          replace h : (Except.error EdErr.emptyFragment :
            Except EdErr RecordResult) = .ok rr := h
          cases h
  · rw [if_neg hct] at h
    replace h : (Except.error EdErr.invalidChangeKind :
      Except EdErr RecordResult) = .ok rr := h
    cases h

theorem regionLocal_mono (t : String) (a : List (String × String))
    (u w v : List XNode) (x : String) (hx : x ∈ regionLocal t a (u ++ v)) :
    x ∈ regionLocal t a (u ++ w ++ v) := by
  rw [regionLocal] at hx ⊢
  by_cases ht : t = trackedChangesTag
  · rw [if_pos ht] at hx ⊢
    rw [List.filterMap_append] at hx
    rw [List.filterMap_append, List.filterMap_append]
    simp only [List.mem_append] at hx ⊢
    tauto
  · rw [if_neg ht] at hx
    cases hx

theorem scanL_mono_mid
    (loc : String → List (String × String) → List XNode → List String)
    (u w v : List XNode) (x : String) (hx : x ∈ scanL loc (u ++ v)) :
    x ∈ scanL loc (u ++ w ++ v) := by
  rw [scanL_append] at hx
  rw [scanL_append, scanL_append]
  simp only [List.mem_append] at hx ⊢
  tauto

theorem setChildren_facts (doc : XNode) (P : Path) (t : String)
    (a : List (String × String)) (ps : Option Nat) (u v w : List XNode)
    (hget : getAt doc P = some (.elem t a ps (u ++ v))) :
    tagOf (setAt P (.elem t a ps (u ++ w ++ v)) doc) = tagOf doc ∧
    (∀ tg x, x ∈ taggedIds tg (setAt P (.elem t a ps (u ++ w ++ v)) doc) →
        x ∈ taggedIds tg doc ∨ x ∈ scanL (markerLocal tg) w) ∧
    (∀ x, x ∈ docRegions doc →
        x ∈ docRegions (setAt P (.elem t a ps (u ++ w ++ v)) doc)) := by
  refine ⟨(setAt_tag_attrs P doc t a ps (u ++ v) (u ++ w ++ v) hget).1, ?_, ?_⟩
  · intro tg x hx
    obtain ⟨X, Y, h1, h2⟩ := docScan_decomp (markerLocal tg)
      (markerLocal_hloc tg) P doc t a ps (u ++ v) hget
    rw [taggedIds, h2 (u ++ w ++ v),
      markerLocal_children tg t a (u ++ w ++ v) (u ++ v),
      scanL_append, scanL_append] at hx
    simp only [List.mem_append] at hx
    by_cases hw : x ∈ scanL (markerLocal tg) w
    · exact Or.inr hw
    · left
      rw [taggedIds, h1, scanL_append]
      simp only [List.mem_append]
      tauto
  · intro x hx
    obtain ⟨X, Y, h1, h2⟩ := docScan_decomp regionLocal regionLocal_hloc
      P doc t a ps (u ++ v) hget
    rw [docRegions, h1] at hx
    rw [docRegions, h2 (u ++ w ++ v)]
    have hm1 := fun hz => regionLocal_mono t a u w v x hz
    have hm2 := fun hz => scanL_mono_mid regionLocal u w v x hz
    by_cases hP : P = []
    · simp only [if_pos hP] at hx ⊢
      simp only [List.mem_append] at hx ⊢
      tauto
    · simp only [if_neg hP] at hx ⊢
      simp only [List.mem_append] at hx ⊢
      tauto

theorem removeChild_facts (doc : XNode) (P : Path) (t : String)
    (a : List (String × String)) (ps : Option Nat) (u v : List XNode)
    (c : XNode)
    (hget : getAt doc P = some (.elem t a ps (u ++ c :: v)))
    (htr : t = trackedChangesTag → P = [])
    (hcreg : scanSelf regionLocal c = []) :
    tagOf (setAt P (.elem t a ps (u ++ v)) doc) = tagOf doc ∧
    (∀ tg x, x ∈ taggedIds tg (setAt P (.elem t a ps (u ++ v)) doc) →
        x ∈ taggedIds tg doc) ∧
    (∀ x, x ∈ docRegions doc →
        x ∈ docRegions (setAt P (.elem t a ps (u ++ v)) doc)) := by
  refine ⟨(setAt_tag_attrs P doc t a ps (u ++ c :: v) (u ++ v) hget).1,
    ?_, ?_⟩
  · intro tg x hx
    obtain ⟨X, Y, h1, h2⟩ := docScan_decomp (markerLocal tg)
      (markerLocal_hloc tg) P doc t a ps (u ++ c :: v) hget
    rw [taggedIds, h2 (u ++ v),
      markerLocal_children tg t a (u ++ v) (u ++ c :: v),
      scanL_append] at hx
    rw [taggedIds, h1, scanL_append, scanL_cons]
    simp only [List.mem_append] at hx ⊢
    tauto
  · intro x hx
    obtain ⟨X, Y, h1, h2⟩ := docScan_decomp regionLocal regionLocal_hloc
      P doc t a ps (u ++ c :: v) hget
    rw [docRegions, h1, scanL_append, scanL_cons, hcreg] at hx
    rw [docRegions, h2 (u ++ v), scanL_append]
    by_cases hP : P = []
    · simp only [if_pos hP] at hx ⊢
      simp only [List.mem_append, List.not_mem_nil] at hx ⊢
      tauto
    · have ht : t ≠ trackedChangesTag := fun he => hP (htr he)
      simp only [if_neg hP, regionLocal_ne t a _ ht] at hx ⊢
      simp only [List.mem_append, List.not_mem_nil] at hx ⊢
      tauto

theorem marker_list_ids (tg mtag cid x : String)
    (h : x ∈ scanL (markerLocal tg)
      [.elem mtag [("text:change-id", cid)] none []]) :
    x = cid ∧ cid ≠ "" := by
  rw [scanL_cons] at h
  simp only [scanL, List.append_nil] at h
  exact marker_elem_ids tg mtag cid x h

theorem insertNodesAfter_facts (doc doc' : XNode) (P : Path) (idx : Nat)
    (ns : List XNode) (h : insertNodesAfter doc P idx ns = some doc') :
    tagOf doc' = tagOf doc ∧
    (∀ tg x, x ∈ taggedIds tg doc' →
        x ∈ taggedIds tg doc ∨ x ∈ scanL (markerLocal tg) ns) ∧
    (∀ x, x ∈ docRegions doc → x ∈ docRegions doc') := by
  rw [insertNodesAfter] at h
  obtain ⟨t, a, ps, cs, cs', hget, hf, hdoc'⟩ := modifyAt_ok P _ doc doc' h
  by_cases hlt : idx < cs.length
  · rw [if_pos hlt] at hf
    simp only [Option.some_inj] at hf
    subst hf
    subst hdoc'
    rw [insertAfterLoop_eq ns cs idx hlt]
    have hget2 : getAt doc P = some (.elem t a ps
        (cs.take (idx + 1) ++ cs.drop (idx + 1))) := by
      rw [List.take_append_drop]
      exact hget
    have hfacts := setChildren_facts doc P t a ps (cs.take (idx + 1))
      (cs.drop (idx + 1)) ns.reverse hget2
    refine ⟨hfacts.1, ?_, hfacts.2.2⟩
    intro tg x hx
    rcases hfacts.2.1 tg x hx with hl | hr
    · exact Or.inl hl
    · obtain ⟨n, hn1, hn2⟩ := (mem_scanL (markerLocal tg) x ns.reverse).mp hr
      exact Or.inr ((mem_scanL (markerLocal tg) x ns).mpr
        ⟨n, List.mem_reverse.mp hn1, hn2⟩)
  · rw [if_neg hlt] at hf
    cases hf

theorem insertNodesBefore_facts (doc doc' : XNode) (P : Path) (idx : Nat)
    (ns : List XNode) (h : insertNodesBefore doc P idx ns = some doc') :
    tagOf doc' = tagOf doc ∧
    (∀ tg x, x ∈ taggedIds tg doc' →
        x ∈ taggedIds tg doc ∨ x ∈ scanL (markerLocal tg) ns) ∧
    (∀ x, x ∈ docRegions doc → x ∈ docRegions doc') := by
  rw [insertNodesBefore] at h
  obtain ⟨t, a, ps, cs, cs', hget, hf, hdoc'⟩ := modifyAt_ok P _ doc doc' h
  by_cases hlt : idx < cs.length
  · rw [if_pos hlt] at hf
    simp only [Option.some_inj] at hf
    subst hf
    subst hdoc'
    rw [insertBeforeLoop_eq ns cs idx (Nat.le_of_lt hlt)]
    have hget2 : getAt doc P = some (.elem t a ps
        (cs.take idx ++ cs.drop idx)) := by
      rw [List.take_append_drop]
      exact hget
    exact setChildren_facts doc P t a ps (cs.take idx) (cs.drop idx) ns hget2
  · rw [if_neg hlt] at hf
    cases hf

theorem markerLocal_ne_tag (tg : String) : ∀ (t : String)
    (a : List (String × String)) (cs : List XNode), t ≠ tg →
    markerLocal tg t a cs = [] := by
  intro t a cs ht
  rw [markerLocal, if_neg ht]

theorem forestChangeFree_nil (frag : List XNode)
    (hfr : forestChangeFree frag = true) (tg : String) (htg : tg ∈ markerTags) :
    scanL (markerLocal tg) frag = [] := by
  refine scanL_nil_of (markerLocal tg) tg (markerLocal_ne_tag tg) frag ?_
  intro n hn
  simp only [forestChangeFree, List.all_eq_true] at hfr
  have h3 := hfr n hn
  simp only [Bool.and_eq_true, Bool.not_eq_true'] at h3
  simp only [markerTags, List.mem_cons, List.not_mem_nil, or_false] at htg
  rcases htg with rfl | rfl | rfl
  · exact h3.1.1
  · exact h3.1.2
  · exact h3.2

theorem sugIns_facts (doc doc' : XNode) (parent : Path) (idx : Nat)
    (frag : List XNode) (cid author date : String)
    (hroot : tagOf doc ≠ trackedChangesTag)
    (hfr : forestChangeFree frag = true)
    (hrun : suggest_insertion doc parent idx frag cid author date = .ok doc') :
    tagOf doc' = tagOf doc ∧
    (∀ x, x ∈ markersSeq doc' → x ∈ markersSeq doc ∨ x ∈ docRegions doc') ∧
    (∀ x, x ∈ docRegions doc → x ∈ docRegions doc') := by
  rw [suggest_insertion] at hrun
  cases hrec : add_change_record doc "insertion" author date (some frag) cid with
  | error e =>
      rw [hrec] at hrun
      replace hrun : (Except.error e : Except EdErr XNode) = .ok doc' := hrun
      cases hrun
  | ok rr =>
      rw [hrec] at hrun
      replace hrun : (do
          let pr : Path × Nat :=
            match rr.created with
            | some (cp, ck) => shiftRef cp ck 1 parent idx
            | none => (parent, idx)
          let d2 ← match insertNodesAfter rr.doc pr.1 pr.2 frag with
            | some d => pure d
            | none => Except.error EdErr.invalidRef
          match firstElemPos frag, lastElemPos frag with
          | some k0, some k1 =>
              add_change_markers d2 pr.1 (pr.2 + frag.length - k0)
                (pr.2 + frag.length - k1) cid
          | _, _ => add_change_point d2 pr.1 pr.2 cid) = .ok doc' := hrun
      obtain ⟨pr, hpr⟩ : ∃ pr, (match rr.created with
        | some (cp, ck) => shiftRef cp ck 1 parent idx
        | none => (parent, idx)) = pr := ⟨_, rfl⟩
      rw [hpr] at hrun
      replace hrun : (do
          let d2 ← match insertNodesAfter rr.doc pr.1 pr.2 frag with
            | some d => pure d
            | none => Except.error EdErr.invalidRef
          match firstElemPos frag, lastElemPos frag with
          | some k0, some k1 =>
              add_change_markers d2 pr.1 (pr.2 + frag.length - k0)
                (pr.2 + frag.length - k1) cid
          | _, _ => add_change_point d2 pr.1 pr.2 cid) = .ok doc' := hrun
      cases hins : insertNodesAfter rr.doc pr.1 pr.2 frag with
      | none =>
          rw [hins] at hrun
          replace hrun :
            (Except.error EdErr.invalidRef : Except EdErr XNode) = .ok doc' :=
            hrun
          cases hrun
      | some d2 =>
          rw [hins] at hrun
          replace hrun : (match firstElemPos frag, lastElemPos frag with
            | some k0, some k1 =>
                add_change_markers d2 pr.1 (pr.2 + frag.length - k0)
                  (pr.2 + frag.length - k1) cid
            | _, _ => add_change_point d2 pr.1 pr.2 cid) = .ok doc' := hrun
          obtain ⟨hrtag, hrmk, hrrg, hrcid, -⟩ :=
            record_facts doc "insertion" author date frag cid rr hroot hrec
          obtain ⟨h2tag, h2mk, h2rg⟩ :=
            insertNodesAfter_facts rr.doc d2 pr.1 pr.2 frag hins
          have hassemble : ∀ dfin : XNode,
              tagOf dfin = tagOf rr.doc →
              (∀ tg x, x ∈ taggedIds tg dfin →
                x ∈ taggedIds tg rr.doc ∨ (x = cid ∧ cid ≠ "") ∨
                  x ∈ scanL (markerLocal tg) frag) →
              (∀ x, x ∈ docRegions rr.doc → x ∈ docRegions dfin) →
              (tagOf dfin = tagOf doc ∧
               (∀ x, x ∈ markersSeq dfin →
                 x ∈ markersSeq doc ∨ x ∈ docRegions dfin) ∧
               (∀ x, x ∈ docRegions doc → x ∈ docRegions dfin)) := by
            intro dfin hA hB hC
            refine ⟨hA.trans hrtag, ?_, fun x hx => hC x (hrrg x hx)⟩
            have key : ∀ tg, tg ∈ markerTags → ∀ x, x ∈ taggedIds tg dfin →
                x ∈ taggedIds tg doc ∨ x ∈ docRegions dfin := by
              intro tg htg x hx
              rcases hB tg x hx with hx1 | ⟨rfl, hne⟩ | hfrg
              · rcases hrmk tg x hx1 with hx0 | hfrg
                · exact Or.inl hx0
                · rw [forestChangeFree_nil frag hfr tg htg] at hfrg
                  cases hfrg
              · exact Or.inr (hC x (hrcid hne))
              · rw [forestChangeFree_nil frag hfr tg htg] at hfrg
                cases hfrg
            intro x hx
            rw [markersSeq] at hx
            simp only [List.mem_append] at hx
            rcases hx with (hx | hx) | hx
            · rcases key "text:change-start" (by decide) x hx with h | h
              · refine Or.inl ?_
                rw [markersSeq]
                simp only [List.mem_append]
                tauto
              · exact Or.inr h
            · rcases key "text:change-end" (by decide) x hx with h | h
              · refine Or.inl ?_
                rw [markersSeq]
                simp only [List.mem_append]
                tauto
              · exact Or.inr h
            · rcases key "text:change" (by decide) x hx with h | h
              · refine Or.inl ?_
                rw [markersSeq]
                simp only [List.mem_append]
                tauto
              · exact Or.inr h
          have hpoint : add_change_point d2 pr.1 pr.2 cid = .ok doc' →
              (tagOf doc' = tagOf doc ∧
               (∀ x, x ∈ markersSeq doc' →
                 x ∈ markersSeq doc ∨ x ∈ docRegions doc') ∧
               (∀ x, x ∈ docRegions doc → x ∈ docRegions doc')) := by
            intro hp
            rw [add_change_point] at hp
            cases hpa : insertNodesAfter d2 pr.1 pr.2 [changePointMarker cid] with
            | none =>
                rw [hpa] at hp
                replace hp : (Except.error EdErr.invalidRef :
                  Except EdErr XNode) = .ok doc' := hp
                cases hp
            | some d3 =>
                rw [hpa] at hp
                replace hp : (Except.ok d3 : Except EdErr XNode) = .ok doc' := hp
                simp only [Except.ok.injEq] at hp
                subst hp
                obtain ⟨h3tag, h3mk, h3rg⟩ := insertNodesAfter_facts d2 d3
                  pr.1 pr.2 [changePointMarker cid] hpa
                refine hassemble d3 (h3tag.trans h2tag) ?_
                  (fun x hx => h3rg x (h2rg x hx))
                intro tg x hx
                rcases h3mk tg x hx with hx2 | hmk
                · rcases h2mk tg x hx2 with hx1 | hfrg
                  · exact Or.inl hx1
                  · exact Or.inr (Or.inr hfrg)
                · exact Or.inr (Or.inl
                    (marker_list_ids tg "text:change" cid x hmk))
          cases hk0 : firstElemPos frag with
          | none =>
              rw [hk0] at hrun
              replace hrun : add_change_point d2 pr.1 pr.2 cid = .ok doc' := hrun
              exact hpoint hrun
          | some k0 =>
              rw [hk0] at hrun
              cases hk1 : lastElemPos frag with
              | none =>
                  rw [hk1] at hrun
                  replace hrun : add_change_point d2 pr.1 pr.2 cid = .ok doc' :=
                    hrun
                  exact hpoint hrun
              | some k1 =>
                  rw [hk1] at hrun
                  replace hrun : add_change_markers d2 pr.1
                    (pr.2 + frag.length - k0) (pr.2 + frag.length - k1) cid =
                    .ok doc' := hrun
                  rw [add_change_markers] at hrun
                  cases hb : insertNodesBefore d2 pr.1
                      (pr.2 + frag.length - k0) [changeStartMarker cid] with
                  | none =>
                      rw [hb] at hrun
                      replace hrun : (Except.error EdErr.invalidRef :
                        Except EdErr XNode) = .ok doc' := hrun
                      cases hrun
                  | some d3 =>
                      rw [hb] at hrun
                      replace hrun : (match insertNodesAfter d3 pr.1
                          (if pr.2 + frag.length - k0 ≤ pr.2 + frag.length - k1
                            then pr.2 + frag.length - k1 + 1
                            else pr.2 + frag.length - k1)
                          [changeEndMarker cid] with
                        | some d => (Except.ok d : Except EdErr XNode)
                        | none => Except.error EdErr.invalidRef) = .ok doc' :=
                        hrun
                      cases ha : insertNodesAfter d3 pr.1
                          (if pr.2 + frag.length - k0 ≤ pr.2 + frag.length - k1
                            then pr.2 + frag.length - k1 + 1
                            else pr.2 + frag.length - k1)
                          [changeEndMarker cid] with
                      | none =>
                          rw [ha] at hrun
                          replace hrun : (Except.error EdErr.invalidRef :
                            Except EdErr XNode) = .ok doc' := hrun
                          cases hrun
                      | some d4 =>
                          rw [ha] at hrun
                          replace hrun : (Except.ok d4 :
                            Except EdErr XNode) = .ok doc' := hrun
                          simp only [Except.ok.injEq] at hrun
                          subst hrun
                          obtain ⟨h3tag, h3mk, h3rg⟩ :=
                            insertNodesBefore_facts d2 d3 pr.1
                              (pr.2 + frag.length - k0)
                              [changeStartMarker cid] hb
                          obtain ⟨h4tag, h4mk, h4rg⟩ :=
                            insertNodesAfter_facts d3 d4 pr.1 _
                              [changeEndMarker cid] ha
                          refine hassemble d4
                            (h4tag.trans (h3tag.trans h2tag)) ?_
                            (fun x hx => h4rg x (h3rg x (h2rg x hx)))
                          intro tg x hx
                          rcases h4mk tg x hx with hx3 | hmk
                          · rcases h3mk tg x hx3 with hx2 | hmk
                            · rcases h2mk tg x hx2 with hx1 | hfrg
                              · exact Or.inl hx1
                              · exact Or.inr (Or.inr hfrg)
                            · exact Or.inr (Or.inl
                                (marker_list_ids tg "text:change-start" cid
                                  x hmk))
                          · exact Or.inr (Or.inl
                              (marker_list_ids tg "text:change-end" cid x hmk))

theorem assemble_facts (doc rrdoc dfin : XNode) (fr : List XNode) (cid : String)
    (hrtag : tagOf rrdoc = tagOf doc)
    (hrmk : ∀ tg x, x ∈ taggedIds tg rrdoc →
      x ∈ taggedIds tg doc ∨ x ∈ scanL (markerLocal tg) fr)
    (hrrg : ∀ x, x ∈ docRegions doc → x ∈ docRegions rrdoc)
    (hrcid : cid ≠ "" → cid ∈ docRegions rrdoc)
    (hfr : forestChangeFree fr = true)
    (hA : tagOf dfin = tagOf rrdoc)
    (hB : ∀ tg x, x ∈ taggedIds tg dfin → x ∈ taggedIds tg rrdoc ∨
      (x = cid ∧ cid ≠ "") ∨ x ∈ scanL (markerLocal tg) fr)
    (hC : ∀ x, x ∈ docRegions rrdoc → x ∈ docRegions dfin) :
    tagOf dfin = tagOf doc ∧
    (∀ x, x ∈ markersSeq dfin → x ∈ markersSeq doc ∨ x ∈ docRegions dfin) ∧
    (∀ x, x ∈ docRegions doc → x ∈ docRegions dfin) := by
  refine ⟨hA.trans hrtag, ?_, fun x hx => hC x (hrrg x hx)⟩
  have key : ∀ tg, tg ∈ markerTags → ∀ x, x ∈ taggedIds tg dfin →
      x ∈ taggedIds tg doc ∨ x ∈ docRegions dfin := by
    intro tg htg x hx
    rcases hB tg x hx with hx1 | ⟨rfl, hne⟩ | hfrg
    · rcases hrmk tg x hx1 with hx0 | hfrg
      · exact Or.inl hx0
      · rw [forestChangeFree_nil fr hfr tg htg] at hfrg
        cases hfrg
    · exact Or.inr (hC x (hrcid hne))
    · rw [forestChangeFree_nil fr hfr tg htg] at hfrg
      cases hfrg
  intro x hx
  rw [markersSeq] at hx
  simp only [List.mem_append] at hx
  rcases hx with (hx | hx) | hx
  · rcases key "text:change-start" (by decide) x hx with h | h
    · refine Or.inl ?_
      rw [markersSeq]
      simp only [List.mem_append]
      tauto
    · exact Or.inr h
  · rcases key "text:change-end" (by decide) x hx with h | h
    · refine Or.inl ?_
      rw [markersSeq]
      simp only [List.mem_append]
      tauto
    · exact Or.inr h
  · rcases key "text:change" (by decide) x hx with h | h
    · refine Or.inl ?_
      rw [markersSeq]
      simp only [List.mem_append]
      tauto
    · exact Or.inr h

theorem sugDel_facts (doc doc' : XNode) (parent : Path) (idx : Nat)
    (cid author date : String)
    (hroot : tagOf doc ≠ trackedChangesTag)
    (hhygT : ∀ n, getAt doc (parent ++ [idx]) = some n →
      nodeTrackingFree n = true)
    (hhygP : ∀ pn, getAt doc parent = some pn →
      tagOf pn ≠ trackedChangesTag)
    (hrun : suggest_deletion doc parent idx cid author date = .ok doc') :
    tagOf doc' = tagOf doc ∧
    (∀ x, x ∈ markersSeq doc' → x ∈ markersSeq doc ∨ x ∈ docRegions doc') ∧
    (∀ x, x ∈ docRegions doc → x ∈ docRegions doc') := by
  rw [suggest_deletion] at hrun
  cases htgt : getAt doc (parent ++ [idx]) with
  | none =>
      rw [htgt] at hrun
      replace hrun :
        (Except.error EdErr.invalidRef : Except EdErr XNode) = .ok doc' := hrun
      cases hrun
  | some target =>
      rw [htgt] at hrun
      replace hrun : (do
          let rr ← add_change_record doc "deletion" author date
            (some [target]) cid
          let pr : Path × Nat :=
            match rr.created with
            | some (cp, ck) => shiftRef cp ck 1 parent idx
            | none => (parent, idx)
          let d2 ← match insertNodesAfter rr.doc pr.1 pr.2
              [changePointMarker cid] with
            | some d => pure d
            | none => Except.error EdErr.invalidRef
          match removeNodeAt d2 pr.1 pr.2 with
          | some d => pure d
          | none => Except.error EdErr.invalidRef) = .ok doc' := hrun
      cases hrec : add_change_record doc "deletion" author date
          (some [target]) cid with
      | error e =>
          rw [hrec] at hrun
          replace hrun :
            (Except.error e : Except EdErr XNode) = .ok doc' := hrun
          cases hrun
      | ok rr =>
          rw [hrec] at hrun
          replace hrun : (do
              let pr : Path × Nat :=
                match rr.created with
                | some (cp, ck) => shiftRef cp ck 1 parent idx
                | none => (parent, idx)
              let d2 ← match insertNodesAfter rr.doc pr.1 pr.2
                  [changePointMarker cid] with
                | some d => pure d
                | none => Except.error EdErr.invalidRef
              match removeNodeAt d2 pr.1 pr.2 with
              | some d => pure d
              | none => Except.error EdErr.invalidRef) = .ok doc' := hrun
          obtain ⟨pr, hpr⟩ : ∃ pr, (match rr.created with
            | some (cp, ck) => shiftRef cp ck 1 parent idx
            | none => (parent, idx)) = pr := ⟨_, rfl⟩
          rw [hpr] at hrun
          replace hrun : (do
              let d2 ← match insertNodesAfter rr.doc pr.1 pr.2
                  [changePointMarker cid] with
                | some d => pure d
                | none => Except.error EdErr.invalidRef
              match removeNodeAt d2 pr.1 pr.2 with
              | some d => pure d
              | none => Except.error EdErr.invalidRef) = .ok doc' := hrun
          cases hins : insertNodesAfter rr.doc pr.1 pr.2
              [changePointMarker cid] with
          | none =>
              rw [hins] at hrun
              replace hrun : (Except.error EdErr.invalidRef :
                Except EdErr XNode) = .ok doc' := hrun
              cases hrun
          | some d2 =>
              rw [hins] at hrun
              replace hrun : (match removeNodeAt d2 pr.1 pr.2 with
                | some d => (Except.ok d : Except EdErr XNode)
                | none => Except.error EdErr.invalidRef) = .ok doc' := hrun
              cases hrem : removeNodeAt d2 pr.1 pr.2 with
              | none =>
                  rw [hrem] at hrun
                  replace hrun : (Except.error EdErr.invalidRef :
                    Except EdErr XNode) = .ok doc' := hrun
                  cases hrun
              | some dfin =>
                  rw [hrem] at hrun
                  replace hrun :
                    (Except.ok dfin : Except EdErr XNode) = .ok doc' := hrun
                  simp only [Except.ok.injEq] at hrun
                  subst hrun
                  -- hygiene facts about the target
                  have htfree := hhygT target htgt
                  simp only [nodeTrackingFree, Bool.and_eq_true,
                    Bool.not_eq_true'] at htfree
                  obtain ⟨⟨hfrt, htrk0⟩, hot0⟩ := htfree
                  -- record and ensure facts
                  obtain ⟨hrtag, hrmk, hrrg, hrcid, er, a2, ps2, cs2, hens,
                    hcrrr, htrk, hrrdoc⟩ :=
                    record_facts doc "deletion" author date [target] cid rr
                      hroot hrec
                  obtain ⟨hetag, htpne, -, hemks, hergs, hernone, hersome⟩ :=
                    ensure_facts doc er hroot hens
                  -- the parent node of the target in the original document
                  have hpar : ∃ pn, getAt doc parent = some pn ∧
                      getAt pn [idx] = some target := by
                    have hga := getAt_append parent [idx] doc
                    rw [htgt] at hga
                    cases hgp : getAt doc parent with
                    | none => rw [hgp] at hga; cases hga
                    | some pn =>
                        rw [hgp] at hga
                        exact ⟨pn, rfl, hga.symm⟩
                  obtain ⟨pn, hpn, hpnc⟩ := hpar
                  have hpntag := hhygP pn hpn
                  -- Step A: the live reference tracks the target into er.doc
                  have hstepA : getAt er.doc (pr.1 ++ [pr.2]) = some target ∧
                      ∃ pn1, getAt er.doc pr.1 = some pn1 ∧
                        tagOf pn1 = tagOf pn := by
                    cases hcr : rr.created with
                    | none =>
                        have hedoc : er.doc = doc :=
                          hernone (hcrrr ▸ hcr)
                        rw [hcr] at hpr
                        replace hpr : (parent, idx) = pr := hpr
                        subst hpr
                        rw [hedoc]
                        exact ⟨htgt, pn, hpn, rfl⟩
                    | some cpck =>
                        obtain ⟨cp, ck⟩ := cpck
                        have hcre : er.created = some (cp, ck) := hcrrr ▸ hcr
                        obtain ⟨a3, ps3, cs3, hgo, hckle, heq⟩ :=
                          hersome cp ck hcre
                        rw [hcr] at hpr
                        replace hpr : shiftRef cp ck 1 parent idx = pr := hpr
                        have hulen : (cs3.take ck).length = ck := by
                          rw [List.length_take]
                          omega
                        have hget' : getAt doc cp = some (.elem "office:text"
                            a3 ps3 (cs3.take ck ++ cs3.drop ck)) := by
                          rw [List.take_append_drop]
                          exact hgo
                        have hlen1 : shiftRef cp (cs3.take ck).length
                            (([.elem trackedChangesTag [] none []] :
                              List XNode).length) parent idx =
                            shiftRef cp ck 1 parent idx := by
                          rw [hulen]
                          rfl
                        have heq2 : setAt cp (.elem "office:text" a3 ps3
                            (cs3.take ck ++ [.elem trackedChangesTag [] none []]
                              ++ cs3.drop ck)) doc = er.doc := by
                          rw [heq, List.append_assoc, List.singleton_append]
                        -- the target reference
                        have hdisj : pathLe (parent ++ [idx]) cp = false := by
                          cases hval : pathLe (parent ++ [idx]) cp with
                          | false => rfl
                          | true =>
                              obtain ⟨r, hr⟩ :=
                                (pathLe_true_iff (parent ++ [idx]) cp).mp hval
                              have hga := getAt_append (parent ++ [idx]) r doc
                              rw [← hr, htgt] at hga
                              have hgt : getAt target r =
                                  some (.elem "office:text" a3 ps3 cs3) :=
                                hga.symm.trans hgo
                              have hsub : subtreeHasTag "office:text"
                                  target = true :=
                                subtreeHasTag_of_getAt r target _
                                  "office:text" hgt
                                  (subtreeHasTag_self "office:text" a3 ps3 cs3)
                              rw [hot0] at hsub
                              cases hsub
                        have htr := transport_insert cp doc "office:text" a3
                          ps3 (cs3.take ck) (cs3.drop ck)
                          [.elem trackedChangesTag [] none []] parent idx
                          target hget' htgt
                        rw [hlen1, hpr, heq2] at htr
                        refine ⟨htr.2 hdisj, ?_⟩
                        -- the parent reference
                        rcases List.eq_nil_or_concat parent with hpe |
                          ⟨pp, pidx, hpe⟩
                        · subst hpe
                          have hpn' : pn = doc := by
                            rw [getAt_nil] at hpn
                            simp only [Option.some_inj] at hpn
                            exact hpn.symm
                          have hfst : pr.1 = [] := by
                            rw [← hpr, shiftRef_nil_fst]
                          rw [hfst]
                          refine ⟨er.doc, getAt_nil er.doc, ?_⟩
                          rw [hetag, hpn']
                        · rw [List.concat_eq_append] at hpe
                          subst hpe
                          have htrp := transport_insert cp doc "office:text"
                            a3 ps3 (cs3.take ck) (cs3.drop ck)
                            [.elem trackedChangesTag [] none []] pp pidx
                            pn hget' hpn
                          have hlen2 : shiftRef cp (cs3.take ck).length
                              (([.elem trackedChangesTag [] none []] :
                                List XNode).length) pp pidx =
                              shiftRef cp ck 1 pp pidx := by
                            rw [hulen]
                            rfl
                          rw [hlen2, heq2] at htrp
                          obtain ⟨⟨pn1, hpn1, htg1, -⟩, -⟩ := htrp
                          have hfst : pr.1 = (shiftRef cp ck 1 pp pidx).1 ++
                              [(shiftRef cp ck 1 pp pidx).2] := by
                            rw [← hpr, shiftRef_parent]
                          rw [hfst]
                          exact ⟨pn1, hpn1, htg1⟩
                  obtain ⟨hAval, pn1, hpn1, htg1⟩ := hstepA
                  -- Step B: through the record append into rr.doc
                  have hdisj2 : pathLe (pr.1 ++ [pr.2]) er.tpath = false := by
                    cases hval : pathLe (pr.1 ++ [pr.2]) er.tpath with
                    | false => rfl
                    | true =>
                        obtain ⟨r, hr⟩ :=
                          (pathLe_true_iff (pr.1 ++ [pr.2]) er.tpath).mp hval
                        have hga := getAt_append (pr.1 ++ [pr.2]) r er.doc
                        rw [← hr, htrk, hAval] at hga
                        have hgt : getAt target r =
                            some (.elem trackedChangesTag a2 ps2 cs2) :=
                          hga.symm
                        have hsub : subtreeHasTag trackedChangesTag
                            target = true :=
                          subtreeHasTag_of_getAt r target _
                            trackedChangesTag hgt
                            (subtreeHasTag_self trackedChangesTag a2 ps2 cs2)
                        rw [htrk0] at hsub
                        cases hsub
                  have htrB := transport_append er.tpath er.doc
                    trackedChangesTag a2 ps2 cs2
                    [regionNode "deletion" author date cid [target]]
                    (pr.1 ++ [pr.2]) target htrk hAval
                  rw [← hrrdoc] at htrB
                  have hBval : getAt rr.doc (pr.1 ++ [pr.2]) = some target :=
                    htrB.2 hdisj2
                  have htrC := transport_append er.tpath er.doc
                    trackedChangesTag a2 ps2 cs2
                    [regionNode "deletion" author date cid [target]]
                    pr.1 pn1 htrk hpn1
                  rw [← hrrdoc] at htrC
                  obtain ⟨⟨pn2, hpn2, htg2, -⟩, -⟩ := htrC
                  -- Step C: invert the point-marker insertion
                  rw [insertNodesAfter] at hins
                  obtain ⟨tp, ap, pp0, csp, csp', hgetp, hfp, hd2⟩ :=
                    modifyAt_ok pr.1 _ rr.doc d2 hins
                  have hpn2' : pn2 = .elem tp ap pp0 csp := by
                    rw [hgetp] at hpn2
                    simp only [Option.some_inj] at hpn2
                    exact hpn2.symm
                  have htp : tp ≠ trackedChangesTag := by
                    intro he
                    apply hpntag
                    rw [← htg1, ← htg2, hpn2', ← he]
                    rfl
                  by_cases hplt : pr.2 < csp.length
                  case neg =>
                    rw [if_neg hplt] at hfp
                    cases hfp
                  case pos =>
                  rw [if_pos hplt] at hfp
                  simp only [Option.some_inj] at hfp
                  have hcsp' : csp' = csp.take (pr.2 + 1) ++
                      [changePointMarker cid] ++ csp.drop (pr.2 + 1) := by
                    rw [← hfp, insertAfterLoop_eq _ _ _ hplt]
                    rfl
                  -- the target child of the parent in rr.doc
                  have hcsp : csp[pr.2]? = some target := by
                    have hga := getAt_append pr.1 [pr.2] rr.doc
                    rw [hBval, hgetp] at hga
                    replace hga : some target =
                        getAt (XNode.elem tp ap pp0 csp) [pr.2] := hga
                    simp only [getAt] at hga
                    cases hcc : csp[pr.2]? with
                    | none => rw [hcc] at hga; cases hga
                    | some c =>
                        rw [hcc] at hga
                        replace hga : some target = some c := hga
                        simp only [Option.some_inj] at hga
                        rw [hga]
                  -- Step D: invert the removal
                  rw [removeNodeAt] at hrem
                  obtain ⟨tq, aq, pq, csq, csq', hgetq, hfq, hdfin⟩ :=
                    modifyAt_ok pr.1 _ d2 dfin hrem
                  have hgetd2 : getAt d2 pr.1 =
                      some (.elem tp ap pp0 csp') := by
                    rw [hd2]
                    exact getAt_setAt pr.1 _ rr.doc _ hgetp
                  have hqe : tq = tp ∧ aq = ap ∧ pq = pp0 ∧ csq = csp' := by
                    rw [hgetq] at hgetd2
                    simp only [Option.some_inj, XNode.elem.injEq] at hgetd2
                    exact hgetd2
                  obtain ⟨htq, haq, hpq, hcsq⟩ := hqe
                  rw [htq, haq, hpq] at hdfin
                  by_cases hq : pr.2 < csq.length
                  case neg =>
                    rw [if_neg hq] at hfq
                    cases hfq
                  case pos =>
                  rw [if_pos hq] at hfq
                  simp only [Option.some_inj] at hfq
                  -- Step E: the removed child is the target, the marker stays
                  have htksucc : csp.take (pr.2 + 1) =
                      csp.take pr.2 ++ [target] := by
                    rw [List.take_succ, hcsp]
                    rfl
                  have hE : csq' = csp.take pr.2 ++ [changePointMarker cid] ++
                      csp.drop (pr.2 + 1) := by
                    rw [← hfq, hcsq, hcsp', htksucc,
                      List.eraseIdx_eq_take_drop_succ]
                    have hul : (csp.take pr.2).length = pr.2 := by
                      rw [List.length_take]
                      omega
                    have htkpart : ((csp.take pr.2 ++ [target]) ++
                        [changePointMarker cid] ++
                        csp.drop (pr.2 + 1)).take pr.2 = csp.take pr.2 := by
                      rw [List.take_append_eq_append_take,
                        List.take_append_eq_append_take,
                        List.take_append_eq_append_take]
                      simp [hul]
                    have hdppart : ((csp.take pr.2 ++ [target]) ++
                        [changePointMarker cid] ++
                        csp.drop (pr.2 + 1)).drop (pr.2 + 1) =
                        [changePointMarker cid] ++ csp.drop (pr.2 + 1) := by
                      rw [List.drop_append_eq_append_drop,
                        List.drop_append_eq_append_drop,
                        List.drop_append_eq_append_drop]
                      simp [hul]
                    rw [htkpart, hdppart]
                    simp [List.append_assoc]
                  -- Step F/G: one removal and one insertion on rr.doc
                  have hdecomp : csp = csp.take pr.2 ++ target ::
                      csp.drop (pr.2 + 1) := list_decomp csp pr.2 target hcsp
                  have hgetp2 : getAt rr.doc pr.1 = some (.elem tp ap pp0
                      (csp.take pr.2 ++ target :: csp.drop (pr.2 + 1))) := by
                    rw [← hdecomp]
                    exact hgetp
                  have hcreg : scanSelf regionLocal target = [] := by
                    refine scanSelf_nil_of regionLocal trackedChangesTag
                      (fun t a cs ht => regionLocal_ne t a cs ht) target htrk0
                  have htrRem := removeChild_facts rr.doc pr.1 tp ap pp0
                    (csp.take pr.2) (csp.drop (pr.2 + 1)) target hgetp2
                    (fun he => absurd he htp) hcreg
                  have hgetmid : getAt (setAt pr.1 (.elem tp ap pp0
                      (csp.take pr.2 ++ csp.drop (pr.2 + 1))) rr.doc) pr.1 =
                      some (.elem tp ap pp0
                        (csp.take pr.2 ++ csp.drop (pr.2 + 1))) :=
                    getAt_setAt pr.1 _ rr.doc _ hgetp
                  have htrIns := setChildren_facts
                    (setAt pr.1 (.elem tp ap pp0
                      (csp.take pr.2 ++ csp.drop (pr.2 + 1))) rr.doc)
                    pr.1 tp ap pp0 (csp.take pr.2) (csp.drop (pr.2 + 1))
                    [changePointMarker cid] hgetmid
                  have hcollapse : setAt pr.1 (.elem tp ap pp0
                      (csp.take pr.2 ++ [changePointMarker cid] ++
                        csp.drop (pr.2 + 1)))
                      (setAt pr.1 (.elem tp ap pp0
                        (csp.take pr.2 ++ csp.drop (pr.2 + 1))) rr.doc) =
                      setAt pr.1 (.elem tp ap pp0
                        (csp.take pr.2 ++ [changePointMarker cid] ++
                          csp.drop (pr.2 + 1))) rr.doc :=
                    setAt_setAt pr.1 _ _ rr.doc _ hgetp
                  have hdfin2 : dfin = setAt pr.1 (.elem tp ap pp0
                      (csp.take pr.2 ++ [changePointMarker cid] ++
                        csp.drop (pr.2 + 1)))
                      (setAt pr.1 (.elem tp ap pp0
                        (csp.take pr.2 ++ csp.drop (pr.2 + 1))) rr.doc) := by
                    rw [hcollapse, hdfin, hE, hd2]
                    exact setAt_setAt pr.1 _ _ rr.doc _ hgetp
                  -- assemble
                  refine assemble_facts doc rr.doc dfin [target] cid hrtag
                    hrmk hrrg hrcid hfrt ?_ ?_ ?_
                  · rw [hdfin2]
                    exact (htrIns.1.trans htrRem.1)
                  · intro tg x hx
                    rw [hdfin2] at hx
                    rcases htrIns.2.1 tg x hx with hx2 | hmk
                    · exact Or.inl (htrRem.2.1 tg x hx2)
                    · exact Or.inr (Or.inl
                        (marker_list_ids tg "text:change" cid x hmk))
                  · intro x hx
                    rw [hdfin2]
                    exact htrIns.2.2 x (htrRem.2.2 x hx)

theorem sugRepl_facts (doc doc' : XNode) (parent : Path) (idx : Nat)
    (frag : List XNode) (delId insId author date : String)
    (hroot : tagOf doc ≠ trackedChangesTag)
    (hfr : forestChangeFree frag = true)
    (hhygT : ∀ n, getAt doc (parent ++ [idx]) = some n →
      nodeTrackingFree n = true)
    (hhygP : ∀ pn, getAt doc parent = some pn →
      tagOf pn ≠ trackedChangesTag)
    (hrun : suggest_replacement doc parent idx frag delId insId author date =
      .ok doc') :
    tagOf doc' = tagOf doc ∧
    (∀ x, x ∈ markersSeq doc' → x ∈ markersSeq doc ∨ x ∈ docRegions doc') ∧
    (∀ x, x ∈ docRegions doc → x ∈ docRegions doc') := by
  rw [suggest_replacement] at hrun
  cases hdel : suggest_deletion doc parent idx delId author date with
  | error e =>
      rw [hdel] at hrun
      replace hrun : (Except.error e : Except EdErr XNode) = .ok doc' := hrun
      cases hrun
  | ok d1 =>
      rw [hdel] at hrun
      replace hrun : (do
          let mp ← locateUniquePath d1 "text:change"
            [("text:change-id", delId)]
          match splitRef mp with
          | none => (Except.error EdErr.invalidRef : Except EdErr XNode)
          | some (mparent, midx) =>
              suggest_insertion d1 mparent midx frag insId author date) =
        .ok doc' := hrun
      cases hloc : locateUniquePath d1 "text:change"
          [("text:change-id", delId)] with
      | error e =>
          rw [hloc] at hrun
          replace hrun :
            (Except.error e : Except EdErr XNode) = .ok doc' := hrun
          cases hrun
      | ok mp =>
          rw [hloc] at hrun
          replace hrun : (match splitRef mp with
            | none => (Except.error EdErr.invalidRef : Except EdErr XNode)
            | some (mparent, midx) =>
                suggest_insertion d1 mparent midx frag insId author date) =
            .ok doc' := hrun
          cases hsp : splitRef mp with
          | none =>
              rw [hsp] at hrun
              replace hrun : (Except.error EdErr.invalidRef :
                Except EdErr XNode) = .ok doc' := hrun
              cases hrun
          | some mm =>
              obtain ⟨mparent, midx⟩ := mm
              rw [hsp] at hrun
              replace hrun : suggest_insertion d1 mparent midx frag insId
                author date = .ok doc' := hrun
              obtain ⟨hdtag, hdmk, hdrg⟩ := sugDel_facts doc d1 parent idx
                delId author date hroot hhygT hhygP hdel
              have hroot1 : tagOf d1 ≠ trackedChangesTag := by
                rw [hdtag]
                exact hroot
              obtain ⟨hitag, himk, hirg⟩ := sugIns_facts d1 doc' mparent midx
                frag insId author date hroot1 hfr hrun
              refine ⟨hitag.trans hdtag, ?_, fun x hx => hirg x (hdrg x hx)⟩
              intro x hx
              rcases himk x hx with hx1 | hx1
              · rcases hdmk x hx1 with hx0 | hx0
                · exact Or.inl hx0
                · exact Or.inr (hirg x hx0)
              · exact Or.inr hx1

theorem runOp_facts (doc doc' : XNode) (op : SOp)
    (hroot : tagOf doc ≠ trackedChangesTag)
    (hhyg : hygienic doc op = true)
    (hrun : runOp doc op = .ok doc') :
    tagOf doc' = tagOf doc ∧
    (∀ x, x ∈ markersSeq doc' → x ∈ markersSeq doc ∨ x ∈ docRegions doc') ∧
    (∀ x, x ∈ docRegions doc → x ∈ docRegions doc') := by
  cases op with
  | ins parent idx frag cid author date =>
      replace hrun : suggest_insertion doc parent idx frag cid author date =
        .ok doc' := hrun
      replace hhyg : forestChangeFree frag = true := hhyg
      exact sugIns_facts doc doc' parent idx frag cid author date hroot
        hhyg hrun
  | del parent idx cid author date =>
      replace hrun : suggest_deletion doc parent idx cid author date =
        .ok doc' := hrun
      replace hhyg : ((match getAt doc (parent ++ [idx]) with
        | some n => nodeTrackingFree n
        | none => true) &&
        (match getAt doc parent with
         | some p => tagOf p != trackedChangesTag
         | none => true)) = true := hhyg
      simp only [Bool.and_eq_true] at hhyg
      refine sugDel_facts doc doc' parent idx cid author date hroot ?_ ?_ hrun
      · intro n hn
        have h1 := hhyg.1
        rw [hn] at h1
        exact h1
      · intro pn hpn
        have h2 := hhyg.2
        rw [hpn] at h2
        replace h2 : (tagOf pn != trackedChangesTag) = true := h2
        simpa using h2
  | repl parent idx frag delId insId author date =>
      replace hrun : suggest_replacement doc parent idx frag delId insId
        author date = .ok doc' := hrun
      replace hhyg : ((forestChangeFree frag &&
        (match getAt doc (parent ++ [idx]) with
          | some n => nodeTrackingFree n
          | none => true)) &&
        (match getAt doc parent with
          | some p => tagOf p != trackedChangesTag
          | none => true)) = true := hhyg
      simp only [Bool.and_eq_true] at hhyg
      refine sugRepl_facts doc doc' parent idx frag delId insId author date
        hroot hhyg.1.1 ?_ ?_ hrun
      · intro n hn
        have h1 := hhyg.1.2
        rw [hn] at h1
        exact h1
      · intro pn hpn
        have h2 := hhyg.2
        rw [hpn] at h2
        replace h2 : (tagOf pn != trackedChangesTag) = true := h2
        simpa using h2

theorem runOps_facts : ∀ (ops : List SOp) (doc doc' : XNode),
    tagOf doc ≠ trackedChangesTag →
    stepsOk doc ops = true →
    runOps doc ops = .ok doc' →
    (∀ x, x ∈ markersSeq doc → x ∈ docRegions doc) →
    tagOf doc' = tagOf doc ∧ (∀ x, x ∈ markersSeq doc' → x ∈ docRegions doc')
  | [], doc, doc', _, _, hrun, hinv => by
      replace hrun : (Except.ok doc : Except EdErr XNode) = .ok doc' := hrun
      simp only [Except.ok.injEq] at hrun
      subst hrun
      exact ⟨rfl, hinv⟩
  | op :: ops, doc, doc', hroot, hsteps, hrun, hinv => by
      replace hrun : (runOp doc op >>= fun d => runOps d ops) = .ok doc' :=
        hrun
      replace hsteps : (hygienic doc op && (match runOp doc op with
        | .ok d2 => stepsOk d2 ops
        | .error _ => true)) = true := hsteps
      cases hop : runOp doc op with
      | error e =>
          rw [hop] at hrun
          replace hrun :
            (Except.error e : Except EdErr XNode) = .ok doc' := hrun
          cases hrun
      | ok d =>
          rw [hop] at hrun
          replace hrun : runOps d ops = .ok doc' := hrun
          rw [hop] at hsteps
          simp only [Bool.and_eq_true] at hsteps
          obtain ⟨hhyg, hsteps2⟩ := hsteps
          replace hsteps2 : stepsOk d ops = true := hsteps2
          obtain ⟨htag, hmk, hrg⟩ := runOp_facts doc d op hroot hhyg hop
          have hroot2 : tagOf d ≠ trackedChangesTag := by
            rw [htag]
            exact hroot
          have hinv2 : ∀ x, x ∈ markersSeq d → x ∈ docRegions d := by
            intro x hx
            rcases hmk x hx with h | h
            · exact hrg x (hinv x h)
            · exact h
          obtain ⟨ht2, hi2⟩ := runOps_facts ops d doc' hroot2 hsteps2 hrun hinv2
          exact ⟨ht2.trans htag, hi2⟩

/-- C2 (amended): (1) starting from any document whose root is not the
tracked-changes container and whose markers are all declared — in
particular a document with no pre-existing tracked changes — every
successful hygienic sequence of `suggest_insertion` / `suggest_deletion` /
`suggest_replacement` operations (fragments free of raw marker elements;
deletion targets free of change-tracking structure and not directly inside
the record container) yields a document on which the Change Consistency
Validator reports zero errors.  (2) When the changed-region record of one
change — uniquely declared, its subtree free of change-tracking structure
— is then deleted from the (non-root) tracked-changes container while its
markers remain in the body, the validator reports one
`Marker references unknown change-id` error PER remaining marker carrying
that change-id — `(markersSeq doc).count r` errors.  A ranged change has a
start and an end marker, so exactly TWO errors are reported, not exactly
one as claimed; only a point change (e.g. a deletion) yields exactly
one. -/
theorem C2_validator_roundtrip :
    (∀ (doc0 : XNode) (ops : List SOp) (doc : XNode),
        tagOf doc0 ≠ trackedChangesTag →
        markersDeclared doc0 = true →
        stepsOk doc0 ops = true →
        runOps doc0 ops = .ok doc →
        validateErrors doc = []) ∧
    (∀ (doc : XNode) (P : Path) (k : Nat) (a2 : List (String × String))
        (ps2 : Option Nat) (cs2 : List XNode) (region : XNode) (r : String)
        (doc' : XNode),
        getAt doc P = some (.elem trackedChangesTag a2 ps2 cs2) →
        P ≠ [] →
        cs2[k]? = some region →
        regionEntry region = some r →
        (docRegions doc).count r = 1 →
        subtreeHasTag trackedChangesTag region = false →
        forestChangeFree [region] = true →
        validateErrors doc = [] →
        removeNodeAt doc P k = some doc' →
        (validateErrors doc').length = (markersSeq doc).count r) := by
  constructor
  · intro doc0 ops doc hroot hdecl hsteps hrun
    have hinv : ∀ x, x ∈ markersSeq doc0 → x ∈ docRegions doc0 := by
      intro x hx
      rw [markersDeclared, List.all_eq_true] at hdecl
      have hc := hdecl x hx
      rwa [string_contains_mem] at hc
    obtain ⟨-, hi⟩ := runOps_facts ops doc0 doc hroot hsteps hrun hinv
    exact (validateErrors_eq_nil_iff doc).mpr (fun c hc => hi c hc)
  · intro doc P k a2 ps2 cs2 region r doc' htrk hPne hk hentry hcount
      htrkfree hfr hclean hrem
    have hklt : k < cs2.length := (List.getElem?_eq_some_iff.mp hk).1
    rw [removeNodeAt,
      modifyAt_of_getAt P _ doc trackedChangesTag a2 ps2 cs2 htrk] at hrem
    rw [if_pos hklt] at hrem
    simp only [Option.map_some', Option.some_inj] at hrem
    subst hrem
    have hdec : cs2 = cs2.take k ++ region :: cs2.drop (k + 1) :=
      list_decomp cs2 k region hk
    have herase : cs2.eraseIdx k = cs2.take k ++ cs2.drop (k + 1) :=
      List.eraseIdx_eq_take_drop_succ cs2 k
    -- the three marker scans are unchanged by the removal
    have hmkeq : ∀ tg, tg ∈ markerTags →
        taggedIds tg (setAt P (.elem trackedChangesTag a2 ps2
          (cs2.eraseIdx k)) doc) = taggedIds tg doc := by
      intro tg htg
      have hreg : scanSelf (markerLocal tg) region = [] := by
        have h0 := forestChangeFree_nil [region] hfr tg htg
        rw [scanL_cons] at h0
        exact (by simpa using h0 :
          scanSelf (markerLocal tg) region = [] ∧
            scanL (markerLocal tg) ([] : List XNode) = []).1
      obtain ⟨X, Y, h1, h2⟩ := docScan_decomp (markerLocal tg)
        (markerLocal_hloc tg) P doc trackedChangesTag a2 ps2 cs2 htrk
      have hsL : scanL (markerLocal tg) cs2 =
          scanL (markerLocal tg) (cs2.take k) ++
            scanL (markerLocal tg) (cs2.drop (k + 1)) := by
        conv_lhs => rw [hdec]
        rw [scanL_append, scanL_cons, hreg]
        simp
      have hsR : scanL (markerLocal tg) (cs2.eraseIdx k) =
          scanL (markerLocal tg) (cs2.take k) ++
            scanL (markerLocal tg) (cs2.drop (k + 1)) := by
        rw [herase, scanL_append]
      rw [taggedIds, taggedIds, h1, h2 (cs2.eraseIdx k), hsL, hsR,
        markerLocal_children tg trackedChangesTag a2 (cs2.eraseIdx k) cs2]
    have hms : markersSeq (setAt P (.elem trackedChangesTag a2 ps2
        (cs2.eraseIdx k)) doc) = markersSeq doc := by
      rw [markersSeq, markersSeq, hmkeq "text:change-start" (by decide),
        hmkeq "text:change-end" (by decide), hmkeq "text:change" (by decide)]
    -- the declared regions lose exactly the one occurrence of r
    obtain ⟨X, Y, h1, h2⟩ := docScan_decomp regionLocal regionLocal_hloc
      P doc trackedChangesTag a2 ps2 cs2 htrk
    have hsreg0 : scanSelf regionLocal region = [] :=
      scanSelf_nil_of regionLocal trackedChangesTag
        (fun t a cs ht => regionLocal_ne t a cs ht) region htrkfree
    have hfmcs2 : List.filterMap regionEntry cs2 =
        List.filterMap regionEntry (cs2.take k) ++ r ::
          List.filterMap regionEntry (cs2.drop (k + 1)) := by
      conv_lhs => rw [hdec]
      rw [List.filterMap_append, List.filterMap_cons, hentry]
    have hscanreg : scanL regionLocal cs2 =
        scanL regionLocal (cs2.take k) ++
          scanL regionLocal (cs2.drop (k + 1)) := by
      conv_lhs => rw [hdec]
      rw [scanL_append, scanL_cons, hsreg0]
      simp
    have hmemdoc : ∀ c, c ∈ docRegions doc ↔
        (c ∈ X ∨ c ∈ List.filterMap regionEntry (cs2.take k) ∨ c = r ∨
          c ∈ List.filterMap regionEntry (cs2.drop (k + 1)) ∨
          c ∈ scanL regionLocal (cs2.take k) ∨
          c ∈ scanL regionLocal (cs2.drop (k + 1)) ∨ c ∈ Y) := by
      intro c
      rw [docRegions, h1, if_neg hPne, regionLocal, if_pos rfl, hfmcs2,
        hscanreg]
      simp only [List.mem_append, List.mem_cons]
      tauto
    have hmemdoc' : ∀ c, c ∈ docRegions (setAt P
        (.elem trackedChangesTag a2 ps2 (cs2.eraseIdx k)) doc) ↔
        (c ∈ X ∨ c ∈ List.filterMap regionEntry (cs2.take k) ∨
          c ∈ List.filterMap regionEntry (cs2.drop (k + 1)) ∨
          c ∈ scanL regionLocal (cs2.take k) ∨
          c ∈ scanL regionLocal (cs2.drop (k + 1)) ∨ c ∈ Y) := by
      intro c
      rw [docRegions, h2 (cs2.eraseIdx k), if_neg hPne, regionLocal,
        if_pos rfl, herase, List.filterMap_append, scanL_append]
      simp only [List.mem_append]
      tauto
    -- uniqueness of r
    rw [docRegions, h1, if_neg hPne, regionLocal, if_pos rfl, hfmcs2,
      hscanreg] at hcount
    simp only [List.count_append, List.count_cons_self] at hcount
    have hnX : r ∉ X := List.count_eq_zero.mp (by omega)
    have hn1 : r ∉ List.filterMap regionEntry (cs2.take k) :=
      List.count_eq_zero.mp (by omega)
    have hn2 : r ∉ List.filterMap regionEntry (cs2.drop (k + 1)) :=
      List.count_eq_zero.mp (by omega)
    have hn3 : r ∉ scanL regionLocal (cs2.take k) :=
      List.count_eq_zero.mp (by omega)
    have hn4 : r ∉ scanL regionLocal (cs2.drop (k + 1)) :=
      List.count_eq_zero.mp (by omega)
    have hnY : r ∉ Y := List.count_eq_zero.mp (by omega)
    -- every marker id hits exactly the filter test `= r`
    have hfc : ∀ c ∈ markersSeq doc,
        (!(docRegions (setAt P (.elem trackedChangesTag a2 ps2
          (cs2.eraseIdx k)) doc)).contains c) = (c == r) := by
      intro c hc
      have hcreg : c ∈ docRegions doc :=
        (validateErrors_eq_nil_iff doc).mp hclean c hc
      by_cases hcr : c = r
      · subst hcr
        have hnot : c ∉ docRegions (setAt P (.elem trackedChangesTag a2 ps2
            (cs2.eraseIdx k)) doc) := by
          rw [hmemdoc']
          rintro (h | h | h | h | h | h)
          · exact hnX h
          · exact hn1 h
          · exact hn2 h
          · exact hn3 h
          · exact hn4 h
          · exact hnY h
        have hco : (docRegions (setAt P (.elem trackedChangesTag a2 ps2
            (cs2.eraseIdx k)) doc)).contains c = false := by
          cases hcc : (docRegions (setAt P (.elem trackedChangesTag a2 ps2
              (cs2.eraseIdx k)) doc)).contains c with
          | false => rfl
          | true => exact absurd (string_contains_mem _ c |>.mp hcc) hnot
        rw [hco, beq_self_eq_true]
        rfl
      · have hcm : c ∈ docRegions (setAt P (.elem trackedChangesTag a2 ps2
            (cs2.eraseIdx k)) doc) := by
          rw [hmemdoc']
          have hin := (hmemdoc c).mp hcreg
          rcases hin with h | h | h | h | h | h | h
          · tauto
          · tauto
          · exact absurd h hcr
          · tauto
          · tauto
          · tauto
          · tauto
        have hco := (string_contains_mem _ c).mpr hcm
        rw [hco]
        have hbeq : (c == r) = false := by
          simp [hcr]
        rw [hbeq]
        rfl
    rw [validateErrors, hms, List.filter_congr hfc]
    rw [show (markersSeq doc).count r =
      List.countP (fun c => c == r) (markersSeq doc) from rfl]
    rw [List.countP_eq_length_filter]

/-- C2 witness: the single-element suggested insertion on the clean
document validates with zero errors, and deleting its change record (a
uniquely declared region with the live markers left behind) produces
`count` = 2 errors. -/
theorem C2_validator_witness :
    validateErrors c2run1 = [] ∧ (validateErrors c2run1del).length = 2 := by
  constructor
  · exact C2_validator_roundtrip.1 c2doc0 [.ins [0] 0 c2frag1 "ct1" "A" "D"]
      c2run1 (by decide) (by decide) (by decide) (by rfl)
  · have h := C2_validator_roundtrip.2 c2run1 [0, 0] 0
      (attrsOf c2container) (posOf c2container) (childrenOf c2container)
      c2region "ct1" c2run1del (by rfl) (by decide) (by rfl) (by rfl)
      (by decide) (by decide) (by decide) (by rfl) (by rfl)
    rw [h]
    decide

/-- C2 counterexample: after the ranged (element-fragment) insertion, the
body holds a change-start AND a change-end marker for the change-id;
deleting the change record while they remain produces TWO
marker-integrity errors, refuting the claimed "exactly one
MarkerIntegrityError". -/
theorem C2_validator_ce :
    markersSeq c2run1del = ["ct1", "ct1"] ∧
    (validateErrors c2run1del).length = 2 ∧
    (validateErrors c2run1del).length ≠ 1 := by
  refine ⟨by rfl, by rfl, by decide⟩

end DocEdit
